import Mathlib

/-!
Verification development for the OpenTSDB metric handler
(`src/diamond/handler/tsdb.py` of the `diamond` repository).

The Python code is shallowly embedded below.  Strings are Lean `String`s,
but the string primitives the handler relies on (`str.split` with a
one-character separator, `str.replace`, `str.count`, `str.startswith`,
`str.format`) are modelled as executable functions over `List Char`, so
that every concrete run of the handler can be evaluated inside Lean and
general properties can be proved by induction.
-/

/-- Decidable equality for `Except`, needed to evaluate the embedded
fallible operations on concrete inputs. -/
instance {ε α : Type} [DecidableEq ε] [DecidableEq α] : DecidableEq (Except ε α) :=
  fun a b =>
    match a, b with
    | .error e1, .error e2 =>
      if h : e1 = e2 then .isTrue (by rw [h])
      else .isFalse (by intro hc; injection hc; exact h (by assumption))
    | .ok a1, .ok a2 =>
      if h : a1 = a2 then .isTrue (by rw [h])
      else .isFalse (by intro hc; injection hc; exact h (by assumption))
    | .error _, .ok _ => .isFalse (by intro hc; exact Except.noConfusion hc)
    | .ok _, .error _ => .isFalse (by intro hc; exact Except.noConfusion hc)

/-- Helper of `splitCL`: prepend a character to the first piece of a piece
list (used for the non-separator characters). -/
def consHead (c : Char) : List (List Char) → List (List Char)
  | [] => [[c]]
  | h :: t => (c :: h) :: t

/-- Embedding of Python `s.split(sep)` for a one-character separator, on
character lists: split at every occurrence of `sep`, keeping empty pieces
(`"".split('.') == ['']`, `".a.".split('.') == ['', 'a', '']`). -/
def splitCL (sep : Char) : List Char → List (List Char)
  | [] => [[]]
  | c :: cs => if c = sep then [] :: splitCL sep cs else consHead c (splitCL sep cs)

/-- Right inverse of `splitCL`: join a list of pieces with the separator. -/
def joinC (sep : Char) : List (List Char) → List Char
  | [] => []
  | [x] => x
  | x :: y :: t => x ++ sep :: joinC sep (y :: t)

theorem consHead_ne_nil (c : Char) (L : List (List Char)) : consHead c L ≠ [] := by
  cases L <;> simp [consHead]

theorem consHead_cons (c : Char) (h : List Char) (t : List (List Char)) :
    consHead c (h :: t) = (c :: h) :: t := rfl

theorem consHead_append (c : Char) (A B : List (List Char)) (hA : A ≠ []) :
    consHead c (A ++ B) = consHead c A ++ B := by
  cases A with
  | nil => exact absurd rfl hA
  | cons h t => simp [consHead]

theorem splitCL_ne_nil (sep : Char) (l : List Char) : splitCL sep l ≠ [] := by
  cases l with
  | nil => simp [splitCL]
  | cons c cs =>
    by_cases hc : c = sep
    · simp [splitCL, hc]
    · simp [splitCL, hc, consHead_ne_nil]

theorem splitCL_append (sep : Char) (a b : List Char) :
    splitCL sep (a ++ sep :: b) = splitCL sep a ++ splitCL sep b := by
  induction a with
  | nil => simp [splitCL]
  | cons c a ih =>
    show splitCL sep (c :: (a ++ sep :: b)) = _
    by_cases hc : c = sep
    · simp [splitCL, hc, ih]
    · simp only [splitCL, if_neg hc, ih,
        consHead_append c (splitCL sep a) (splitCL sep b) (splitCL_ne_nil sep a)]

theorem sep_not_mem_splitCL (sep : Char) (l : List Char) :
    ∀ x ∈ splitCL sep l, sep ∉ x := by
  induction l with
  | nil => intro x hx; simp [splitCL] at hx; simp [hx]
  | cons c cs ih =>
    intro x hx
    by_cases hc : c = sep
    · simp only [splitCL, if_pos hc] at hx
      rcases List.mem_cons.mp hx with hx | hx
      · simp [hx]
      · exact ih x hx
    · simp only [splitCL, if_neg hc] at hx
      cases h : splitCL sep cs with
      | nil => exact absurd h (splitCL_ne_nil sep cs)
      | cons hd tl =>
        rw [h, consHead_cons] at hx
        rcases List.mem_cons.mp hx with hx | hx
        · subst hx
          intro hmem
          rcases List.mem_cons.mp hmem with h1 | h1
          · exact hc h1.symm
          · exact ih hd (by rw [h]; exact List.mem_cons_self hd tl) h1
        · exact ih x (by rw [h]; exact List.mem_cons_of_mem hd hx)

theorem splitCL_of_not_mem (sep : Char) (l : List Char) (h : sep ∉ l) :
    splitCL sep l = [l] := by
  induction l with
  | nil => rfl
  | cons c cs ih =>
    have hcs : sep ∉ cs := fun hm => h (List.mem_cons_of_mem c hm)
    have hc : c ≠ sep := fun he => h (he ▸ List.mem_cons_self c cs)
    simp only [splitCL, ih hcs, if_neg hc, consHead_cons]

theorem joinC_cons (sep : Char) (x : List Char) (L : List (List Char)) (hL : L ≠ []) :
    joinC sep (x :: L) = x ++ sep :: joinC sep L := by
  cases L with
  | nil => exact absurd rfl hL
  | cons y t => rfl

theorem joinC_cons_head (sep c : Char) (h : List Char) (t : List (List Char)) :
    joinC sep ((c :: h) :: t) = c :: joinC sep (h :: t) := by
  cases t <;> rfl

theorem joinC_splitCL (sep : Char) (l : List Char) :
    joinC sep (splitCL sep l) = l := by
  induction l with
  | nil => rfl
  | cons c cs ih =>
    cases h : splitCL sep cs with
    | nil => exact absurd h (splitCL_ne_nil sep cs)
    | cons hd tl =>
      rw [h] at ih
      by_cases hc : c = sep
      · subst hc
        rw [show splitCL c (c :: cs) = [] :: hd :: tl by
          simp only [splitCL, if_pos rfl, if_true, h],
          joinC_cons c [] (hd :: tl) (by simp)]
        simp [ih]
      · rw [show splitCL sep (c :: cs) = (c :: hd) :: tl by
          simp only [splitCL, if_neg hc, h, consHead_cons],
          joinC_cons_head, ih]

theorem joinC_append (sep : Char) (A B : List (List Char)) (hA : A ≠ []) (hB : B ≠ []) :
    joinC sep (A ++ B) = joinC sep A ++ sep :: joinC sep B := by
  induction A with
  | nil => exact absurd rfl hA
  | cons x A' ih =>
    cases A' with
    | nil =>
      simp only [List.cons_append, List.nil_append]
      rw [joinC_cons sep x B hB]
      rfl
    | cons x2 A'' =>
      have hne : x2 :: A'' ≠ [] := by simp
      have hne2 : (x2 :: A'') ++ B ≠ [] := by simp
      show joinC sep (x :: ((x2 :: A'') ++ B)) = joinC sep (x :: x2 :: A'') ++ sep :: joinC sep B
      rw [joinC_cons sep x ((x2 :: A'') ++ B) hne2, ih hne,
        joinC_cons sep x (x2 :: A'') hne]
      simp

theorem splitCL_joinC (sep : Char) (L : List (List Char)) (h1 : L ≠ [])
    (h2 : ∀ x ∈ L, sep ∉ x) : splitCL sep (joinC sep L) = L := by
  induction L with
  | nil => exact absurd rfl h1
  | cons x L' ih =>
    cases L' with
    | nil =>
      show splitCL sep (joinC sep [x]) = [x]
      exact splitCL_of_not_mem sep x (h2 x (by simp))
    | cons y t =>
      have hne : y :: t ≠ [] := by simp
      rw [joinC_cons sep x (y :: t) hne, splitCL_append,
        splitCL_of_not_mem sep x (h2 x (by simp)),
        ih hne (fun z hz => h2 z (List.mem_cons_of_mem x hz))]
      rfl

/-- Fuel-indexed worker for the embedding of Python `s.replace(old, new)`
with a non-empty pattern `p :: ps`: scan left to right, replace every
non-overlapping occurrence, and continue scanning after the inserted
replacement, exactly as CPython does.  The fuel is only there to make the
recursion structural; `pyR` always supplies enough. -/
def pyRepAux (p : Char) (ps new : List Char) : Nat → List Char → List Char
  | _, [] => []
  | 0, l => l
  | f + 1, c :: cs =>
    if (p :: ps).isPrefixOf (c :: cs) then new ++ pyRepAux p ps new f (cs.drop ps.length)
    else c :: pyRepAux p ps new f cs

/-- Embedding of Python `s.replace(p :: ps, new)` on character lists. -/
def pyR (p : Char) (ps new l : List Char) : List Char :=
  pyRepAux p ps new l.length l

theorem pyRepAux_congr (p : Char) (ps new : List Char) :
    ∀ (f g : Nat) (l : List Char), l.length ≤ f → l.length ≤ g →
      pyRepAux p ps new f l = pyRepAux p ps new g l := by
  intro f
  induction f with
  | zero =>
    intro g l h1 _
    have : l = [] := List.eq_nil_of_length_eq_zero (Nat.le_zero.mp h1)
    subst this
    cases g <;> rfl
  | succ f ih =>
    intro g l h1 h2
    cases l with
    | nil => cases g <;> rfl
    | cons c cs =>
      cases g with
      | zero => simp at h2
      | succ g' =>
        simp only [pyRepAux]
        by_cases hp : (p :: ps).isPrefixOf (c :: cs)
        · simp only [hp, if_true]
          have hlen : (cs.drop ps.length).length ≤ f := by
            simp only [List.length_drop]
            have : cs.length ≤ f := by simpa using h1
            omega
          have hlen2 : (cs.drop ps.length).length ≤ g' := by
            simp only [List.length_drop]
            have : cs.length ≤ g' := by simpa using h2
            omega
          rw [ih g' (cs.drop ps.length) hlen hlen2]
        · simp only [hp, if_false, Bool.false_eq_true]
          rw [ih g' cs (by simpa using h1) (by simpa using h2)]

theorem pyR_nil (p : Char) (ps new : List Char) : pyR p ps new [] = [] := rfl

theorem pyR_cons_pos (p : Char) (ps new : List Char) (c : Char) (cs : List Char)
    (h : (p :: ps).isPrefixOf (c :: cs) = true) :
    pyR p ps new (c :: cs) = new ++ pyR p ps new (cs.drop ps.length) := by
  show pyRepAux p ps new (cs.length + 1) (c :: cs) = _
  simp only [pyRepAux, h, if_true]
  rw [pyRepAux_congr p ps new cs.length (cs.drop ps.length).length (cs.drop ps.length)
    (by simp [List.length_drop]) (le_refl _)]
  rfl

theorem pyR_cons_neg (p : Char) (ps new : List Char) (c : Char) (cs : List Char)
    (h : (p :: ps).isPrefixOf (c :: cs) = false) :
    pyR p ps new (c :: cs) = c :: pyR p ps new cs := by
  show pyRepAux p ps new (cs.length + 1) (c :: cs) = _
  simp only [pyRepAux, h, if_false, Bool.false_eq_true]
  rfl

theorem isPrefixOf_self_append (l r : List Char) : l.isPrefixOf (l ++ r) = true := by
  induction l with
  | nil => simp [List.isPrefixOf]
  | cons a as ih => simp [List.isPrefixOf, ih]

theorem isPrefixOf_cons_ne (p c : Char) (ps cs : List Char) (h : p ≠ c) :
    (p :: ps).isPrefixOf (c :: cs) = false := by
  simp [List.isPrefixOf, h]

/-- Scanning a separator-free block never matches a pattern that starts
with the separator. -/
theorem pyR_append_left (sep : Char) (ps new : List Char) :
    ∀ (x r : List Char), sep ∉ x →
      pyR sep ps new (x ++ r) = x ++ pyR sep ps new r := by
  intro x
  induction x with
  | nil => intro r _; rfl
  | cons c x' ih =>
    intro r hx
    have hc : sep ≠ c := fun he => hx (he ▸ List.mem_cons_self c x')
    show pyR sep ps new (c :: (x' ++ r)) = _
    rw [pyR_cons_neg sep ps new c (x' ++ r) (isPrefixOf_cons_ne sep c ps (x' ++ r) hc),
      ih r (fun hm => hx (List.mem_cons_of_mem c hm))]
    rfl

theorem pyR_self (sep : Char) (ps new : List Char) (x : List Char) (hx : sep ∉ x) :
    pyR sep ps new x = x := by
  have := pyR_append_left sep ps new x [] hx
  simpa [pyR_nil] using this

/-- If `v ++ [sep]` is a prefix of a separator-free first piece followed by
a separator, the piece must be `v` itself. -/
theorem prefix_seg_eq (sep : Char) :
    ∀ (v y r : List Char), sep ∉ v → sep ∉ y →
      (v ++ [sep]).isPrefixOf (y ++ sep :: r) = true → v = y := by
  intro v
  induction v with
  | nil =>
    intro y r _ hy h
    cases y with
    | nil => rfl
    | cons a y' =>
      simp only [List.nil_append, List.cons_append, List.isPrefixOf, Bool.and_eq_true,
        beq_iff_eq] at h
      exact absurd h.1 (fun he => hy (he ▸ List.mem_cons_self a y'))
  | cons b v' ih =>
    intro y r hv hy h
    cases y with
    | nil =>
      simp only [List.nil_append, List.cons_append, List.isPrefixOf, Bool.and_eq_true,
        beq_iff_eq] at h
      exact absurd h.1 (fun he => hv (he ▸ List.mem_cons_self b v'))
    | cons a y' =>
      simp only [List.cons_append, List.isPrefixOf, Bool.and_eq_true, beq_iff_eq] at h
      have hb : b = a := h.1
      have : v' = y' := by
        apply ih y' r (fun hm => hv (List.mem_cons_of_mem b hm))
          (fun hm => hy (List.mem_cons_of_mem a hm))
        exact h.2
      rw [hb, this]

/-- A pattern containing the separator is never a prefix of a
separator-free piece. -/
theorem prefix_sep_free (sep : Char) :
    ∀ (v y : List Char), sep ∉ y → (v ++ [sep]).isPrefixOf y = true → False := by
  intro v
  induction v with
  | nil =>
    intro y hy h
    cases y with
    | nil => simp [List.isPrefixOf] at h
    | cons a y' =>
      simp only [List.nil_append, List.isPrefixOf, Bool.and_eq_true, beq_iff_eq] at h
      exact hy (h.1 ▸ List.mem_cons_self a y')
  | cons b v' ih =>
    intro y hy h
    cases y with
    | nil => simp [List.isPrefixOf] at h
    | cons a y' =>
      simp only [List.cons_append, List.isPrefixOf, Bool.and_eq_true, beq_iff_eq] at h
      exact ih y' (fun hm => hy (List.mem_cons_of_mem a hm)) h.2

/-- Replacing `sep :: v ++ [sep]` in a joined piece list in which `v` does
not occur as a piece leaves the string unchanged. -/
theorem pyR_join_eq_self (sep : Char) (v new : List Char) (hv : sep ∉ v) :
    ∀ (ys : List (List Char)), ys ≠ [] → (∀ x ∈ ys, sep ∉ x) → v ∉ ys →
      pyR sep (v ++ [sep]) new (joinC sep ys) = joinC sep ys := by
  intro ys
  induction ys with
  | nil => intro h; exact absurd rfl h
  | cons y ys' ih =>
    intro _ hdf hmem
    cases ys' with
    | nil => exact pyR_self sep (v ++ [sep]) new y (hdf y (by simp))
    | cons y2 ys'' =>
      have hne : y2 :: ys'' ≠ [] := by simp
      rw [joinC_cons sep y (y2 :: ys'') hne,
        pyR_append_left sep (v ++ [sep]) new y (sep :: joinC sep (y2 :: ys''))
          (hdf y (by simp))]
      have hfalse : (sep :: (v ++ [sep])).isPrefixOf (sep :: joinC sep (y2 :: ys'')) =
          false := by
        cases hb : (v ++ [sep]).isPrefixOf (joinC sep (y2 :: ys'')) with
        | false => simp [List.isPrefixOf, hb]
        | true =>
          exfalso
          cases ys'' with
          | nil => exact prefix_sep_free sep v y2 (hdf y2 (by simp)) hb
          | cons y3 t =>
            rw [joinC_cons sep y2 (y3 :: t) (by simp)] at hb
            have heq := prefix_seg_eq sep v y2 (joinC sep (y3 :: t)) hv
              (hdf y2 (by simp)) hb
            exact hmem (by
              rw [heq]
              exact List.mem_cons_of_mem y (List.mem_cons_self y2 (y3 :: t)))
      rw [pyR_cons_neg sep (v ++ [sep]) new sep (joinC sep (y2 :: ys'')) hfalse,
        ih hne (fun z hz => hdf z (List.mem_cons_of_mem y hz))
          (fun hm => hmem (List.mem_cons_of_mem y hm))]

/-- Main removal lemma: replacing `sep :: v ++ [sep]` with `[sep]` in
`joinC sep (A ++ v :: B)` removes exactly the designated occurrence of the
piece `v`, provided `v` occurs in no other piece position. -/
theorem pyR_remove (sep : Char) (v : List Char) (hv : sep ∉ v) :
    ∀ (A B : List (List Char)), A ≠ [] → B ≠ [] →
      (∀ x ∈ A, sep ∉ x) → (∀ x ∈ B, sep ∉ x) → v ∉ A → v ∉ B →
      pyR sep (v ++ [sep]) [sep] (joinC sep (A ++ v :: B)) = joinC sep (A ++ B) := by
  intro A
  induction A with
  | nil => intro B h; exact absurd rfl h
  | cons x A' ih =>
    intro B _ hB hdfA hdfB hvA hvB
    cases A' with
    | nil =>
      show pyR sep (v ++ [sep]) [sep] (joinC sep (x :: v :: B)) = joinC sep (x :: B)
      rw [joinC_cons sep x (v :: B) (by simp),
        pyR_append_left sep (v ++ [sep]) [sep] x _ (hdfA x (by simp)),
        joinC_cons sep v B hB]
      have hshape : v ++ sep :: joinC sep B = (v ++ [sep]) ++ joinC sep B := by simp
      have hpre : (sep :: (v ++ [sep])).isPrefixOf
          (sep :: (v ++ sep :: joinC sep B)) = true := by
        rw [hshape]
        exact isPrefixOf_self_append (sep :: (v ++ [sep])) (joinC sep B)
      rw [pyR_cons_pos sep (v ++ [sep]) [sep] sep _ hpre]
      have hdrop : (v ++ sep :: joinC sep B).drop (v ++ [sep]).length = joinC sep B := by
        rw [hshape]
        exact List.drop_left (v ++ [sep]) (joinC sep B)
      rw [hdrop, pyR_join_eq_self sep v [sep] hv B hB hdfB hvB,
        joinC_cons sep x B hB]
      rfl
    | cons x2 A'' =>
      have hne : (x2 :: A'') ++ v :: B ≠ [] := by simp
      show pyR sep (v ++ [sep]) [sep] (joinC sep (x :: ((x2 :: A'') ++ v :: B))) = _
      rw [joinC_cons sep x _ hne,
        pyR_append_left sep (v ++ [sep]) [sep] x _ (hdfA x (by simp))]
      have hfalse : (sep :: (v ++ [sep])).isPrefixOf
          (sep :: joinC sep ((x2 :: A'') ++ v :: B)) = false := by
        cases hb : (v ++ [sep]).isPrefixOf (joinC sep ((x2 :: A'') ++ v :: B)) with
        | false =>
          simp only [List.isPrefixOf, beq_self_eq_true, Bool.true_and]
          exact hb
        | true =>
          exfalso
          have hj : joinC sep ((x2 :: A'') ++ v :: B) =
              x2 ++ sep :: joinC sep (A'' ++ v :: B) := by
            show joinC sep (x2 :: (A'' ++ v :: B)) = _
            exact joinC_cons sep x2 _ (by simp)
          rw [hj] at hb
          have heq := prefix_seg_eq sep v x2 (joinC sep (A'' ++ v :: B)) hv
            (hdfA x2 (by simp)) hb
          exact hvA (by
            rw [heq]
            exact List.mem_cons_of_mem x (List.mem_cons_self x2 A''))
      rw [pyR_cons_neg sep (v ++ [sep]) [sep] sep _ hfalse,
        ih B (by simp) hB (fun z hz => hdfA z (List.mem_cons_of_mem x hz)) hdfB
          (fun hm => hvA (List.mem_cons_of_mem x hm)) hvB]
      have hne2 : (x2 :: A'') ++ B ≠ [] := by simp
      show x ++ sep :: joinC sep ((x2 :: A'') ++ B) = joinC sep (x :: ((x2 :: A'') ++ B))
      rw [joinC_cons sep x _ hne2]

/-- Embedding of Python `s.split(sep)` (one-character separator) on `String`. -/
def splitC (sep : Char) (s : String) : List String :=
  (splitCL sep s.data).map String.mk

/-- Embedding of Python `s.replace(old, new)` on `String`.  The handler only
ever calls it with a non-empty pattern; the `[]` branch is a placeholder. -/
def pyReplace (s old new : String) : String :=
  match old.data with
  | [] => s
  | p :: ps => String.mk (pyR p ps new.data s.data)

/-- Embedding of Python `s.count(c)` for a single character. -/
def countC (c : Char) (s : String) : Nat := s.data.count c

/-- Embedding of Python `s.startswith(pre)`. -/
def pyStartsWith (pre s : String) : Bool := pre.data.isPrefixOf s.data

/-- Upstream metric interface (spec §6): the host framework hands the handler
an object exposing the collector identifier, the full dotted path, a
separately retrievable metric-path suffix after the collector prefix, and the
remaining read-only fields.  `diamond/metric.py` itself is not under `src/`,
so the accessors are modelled from the spec: the full dotted path has the
shape `<pathPrefix>.<collectorPath>.<metricPath>` (spec example
`servers.host.cpu.total.idle` with metric path `total.idle`).  Numeric fields
that the handler only ever interpolates into the output line are carried in
their rendered form. -/
structure RawMetric where
  pathPrefix : String
  collectorPath : String
  metricPath : String
  host : String
  timestamp : String
  value : String
  raw_value : String
  precision : Nat
  ttl : Nat
  metric_type : String
deriving DecidableEq

/-- Modelled from the spec: the full dotted path exposed by the upstream
metric (`delegate.path` in the source), of shape
`<pathPrefix>.<collectorPath>.<metricPath>`. -/
def RawMetric.path (m : RawMetric) : String :=
  m.pathPrefix ++ "." ++ m.collectorPath ++ "." ++ m.metricPath

/-- State of a `MetricWrapper` object (tsdb.py lines 242-370): the delegate,
the mutable `path`, the tag dictionary (an insertion-ordered association
list with unique keys, modelling the Python dict) and the aggregate flag. -/
structure MetricWrapper where
  delegate : RawMetric
  path : String
  tags : List (String × String)
  aggregate : Bool
deriving DecidableEq

/-- Embedding of Python dict assignment `d[k] = v` on the association list:
overwrite in place if the key exists, append otherwise. -/
def dictSet : List (String × String) → String → String → List (String × String)
  | [], k, v => [(k, v)]
  | (k', v') :: rest, k, v =>
    if k' = k then (k, v) :: rest else (k', v') :: dictSet rest k v

def MetricWrapper.isAggregate (w : MetricWrapper) : Bool := w.aggregate

def MetricWrapper.getTags (w : MetricWrapper) : List (String × String) := w.tags

/-- Modelled from the spec: the inherited `getCollectorPath` accessor
(`diamond/metric.py` is not under `src/`); spec §6 calls it the originating
collector identifier. -/
def MetricWrapper.getCollectorPath (w : MetricWrapper) : String :=
  w.delegate.collectorPath

/-- Modelled from the spec: the inherited `getMetricPath` accessor
(`diamond/metric.py` is not under `src/`).  Spec §6 describes it as the
separately retrievable metric-path suffix after the collector prefix; the
wrapper recomputes it from its own (possibly rewritten) `path` by stripping
the leading `<pathPrefix>.<collectorPath>.` prefix. -/
def MetricWrapper.getMetricPath (w : MetricWrapper) : String :=
  let pre := w.delegate.pathPrefix ++ "." ++ w.delegate.collectorPath ++ "."
  if pre.data.isPrefixOf w.path.data then String.mk (w.path.data.drop pre.data.length)
  else w.path

/-- Embedding of `MetricWrapper.processDefaultMetric` (tsdb.py 253-255). -/
def processDefaultMetric (w : MetricWrapper) : Option MetricWrapper :=
  some { w with tags := [], aggregate := false }

/-- Embedding of `MetricWrapper.processCpuMetric` (tsdb.py 262-268).
Python list indexing raises on out-of-bounds, hence the `Option` plumbing
through `List.get?`. -/
def processCpuMetric (w : MetricWrapper) : Option MetricWrapper :=
  if (splitC '.' w.getMetricPath).length > 1 then
    match (splitC '.' w.getMetricPath).get? 0, (splitC '.' w.delegate.metricPath).get? 0 with
    | some s0, some cpuId =>
      some { w with
        aggregate := s0 == "total",
        tags := dictSet w.tags "cpuId" cpuId,
        path := pyReplace w.path ("." ++ cpuId ++ ".") "." }
    | _, _ => none
  else some w

/-- Embedding of `MetricWrapper.processHaProxyMetric` (tsdb.py 274-283). -/
def processHaProxyMetric (w : MetricWrapper) : Option MetricWrapper :=
  if (splitC '.' w.getMetricPath).length == 3 then
    match (splitC '.' w.getMetricPath).get? 1, (splitC '.' w.delegate.metricPath).get? 0,
        (splitC '.' w.delegate.metricPath).get? 1 with
    | some s1, some backend, some server =>
      some { w with
        aggregate := s1 == "backend",
        tags := dictSet (dictSet w.tags "backend" backend) "server" server,
        path := pyReplace (pyReplace w.path ("." ++ server ++ ".") ".")
          ("." ++ backend ++ ".") "." }
    | _, _, _ => none
  else some w

/-- Embedding of `MetricWrapper.processDiskspaceMetric` (tsdb.py 289-295). -/
def processDiskspaceMetric (w : MetricWrapper) : Option MetricWrapper :=
  if (splitC '.' w.getMetricPath).length == 2 then
    match (splitC '.' w.delegate.metricPath).get? 0 with
    | some mountpoint =>
      some { w with
        tags := dictSet w.tags "mountpoint" mountpoint,
        path := pyReplace w.path ("." ++ mountpoint ++ ".") "." }
    | none => none
  else some w

/-- Embedding of `MetricWrapper.processDiskusageMetric` (tsdb.py 301-307). -/
def processDiskusageMetric (w : MetricWrapper) : Option MetricWrapper :=
  if (splitC '.' w.getMetricPath).length == 2 then
    match (splitC '.' w.delegate.metricPath).get? 0 with
    | some device =>
      some { w with
        tags := dictSet w.tags "device" device,
        path := pyReplace w.path ("." ++ device ++ ".") "." }
    | none => none
  else some w

/-- Embedding of `MetricWrapper.processNetworkMetric` (tsdb.py 313-319). -/
def processNetworkMetric (w : MetricWrapper) : Option MetricWrapper :=
  if (splitC '.' w.getMetricPath).length == 2 then
    match (splitC '.' w.delegate.metricPath).get? 0 with
    | some interface =>
      some { w with
        tags := dictSet w.tags "interface" interface,
        path := pyReplace w.path ("." ++ interface ++ ".") "." }
    | none => none
  else some w

/-- Embedding of the first `if` of `processMattermostMetric` (tsdb.py
324-327): on `teamdetails` or `channeldetails`, tag and remove segment 1. -/
def mattermostTeamBranch (split : List String) (s0 : String) (w : MetricWrapper) :
    Option MetricWrapper :=
  if s0 == "teamdetails" || s0 == "channeldetails" then
    match split.get? 1 with
    | some team =>
      some { w with
        tags := dictSet w.tags "team" team,
        path := pyReplace w.path ("." ++ team ++ ".") "." }
    | none => none
  else some w

/-- Embedding of the second `if` of `processMattermostMetric` (tsdb.py
329-332): on `channeldetails`, additionally tag and remove segment 2. -/
def mattermostChannelBranch (split : List String) (s0 : String) (w : MetricWrapper) :
    Option MetricWrapper :=
  if s0 == "channeldetails" then
    match split.get? 2 with
    | some channel =>
      some { w with
        tags := dictSet w.tags "channel" channel,
        path := pyReplace w.path ("." ++ channel ++ ".") "." }
    | none => none
  else some w

/-- Embedding of the third `if` of `processMattermostMetric` (tsdb.py
333-342): on `userdetails`, read segments 1, 2 and 3 (in the source the
three reads happen before any mutation, so a failed read mutates nothing),
then tag and remove all three. -/
def mattermostUserBranch (split : List String) (s0 : String) (w : MetricWrapper) :
    Option MetricWrapper :=
  if s0 == "userdetails" then
    match split.get? 1, split.get? 2, split.get? 3 with
    | some user, some team, some channel =>
      some { w with
        tags := dictSet (dictSet (dictSet w.tags "user" user) "team" team)
          "channel" channel,
        path := pyReplace (pyReplace (pyReplace w.path ("." ++ user ++ ".") ".")
          ("." ++ team ++ ".") ".") ("." ++ channel ++ ".") "." }
    | _, _, _ => none
  else some w

/-- Embedding of `MetricWrapper.processMattermostMetric` (tsdb.py 321-342):
compute the split once, and under the `len(split) > 2` guard run the three
`if` statements in order.  The `userdetails` branch reads `split[3]` even
though the guard only ensures `len(split) > 2`; `List.get?` returning
`none` models the resulting `IndexError`. -/
def processMattermostMetric (w : MetricWrapper) : Option MetricWrapper :=
  let split := splitC '.' w.getMetricPath
  if split.length > 2 then
    match split.get? 0 with
    | none => none
    | some s0 =>
      match mattermostTeamBranch split s0 w with
      | none => none
      | some w1 =>
        match mattermostChannelBranch split s0 w1 with
        | none => none
        | some w2 => mattermostUserBranch split s0 w2
  else some w

/-- Embedding of the `handlers` dispatch dict (tsdb.py 344-351) together with
the `handlers.get(collector, handlers['default'])` lookup (tsdb.py 368-369). -/
def dispatchHandler (c : String) : MetricWrapper → Option MetricWrapper :=
  if c = "cpu" then processCpuMetric
  else if c = "haproxy" then processHaProxyMetric
  else if c = "mattermost" then processMattermostMetric
  else if c = "diskspace" then processDiskspaceMetric
  else if c = "iostat" then processDiskusageMetric
  else if c = "network" then processNetworkMetric
  else processDefaultMetric

/-- Embedding of the field initialisation part of `MetricWrapper.__init__`
(tsdb.py 353-366): copy the delegate fields, start with an empty tag dict
and a false aggregate flag. -/
def mkWrapper (d : RawMetric) : MetricWrapper :=
  { delegate := d, path := d.path, tags := [], aggregate := false }

/-- Embedding of `MetricWrapper.__init__` (tsdb.py 353-370): build the
wrapper state and run the handler selected by the collector identifier;
`none` models an exception escaping the constructor. -/
def processMetric (d : RawMetric) : Option MetricWrapper :=
  dispatchHandler d.collectorPath (mkWrapper d)

/-- Configuration options of `TSDBHandler` that `process` consumes
(tsdb.py 78-95): the line template, the normalized static tag string, and
the two boolean switches. -/
structure Config where
  metric_format : String
  tags : String
  skipAggregates : Bool
  cleanMetrics : Bool

/-- Keyword environment passed to `str.format` by `TSDBHandler.process`
(tsdb.py 156-164): the seven named substitution values.  Looking up any
other field name yields `none`, modelling Python's `KeyError`. -/
def renderEnv (collector path metricp host timestamp value tags : String) :
    String → Option String := fun n =>
  if n = "Collector" then some collector
  else if n = "Path" then some path
  else if n = "Metric" then some metricp
  else if n = "host" then some host
  else if n = "timestamp" then some timestamp
  else if n = "value" then some value
  else if n = "tags" then some tags
  else none

/-- Worker of the embedding of Python `str.format` with keyword arguments:
walk the template; outside a field (`none` state) copy characters, handle
the `{{`/`}}` escapes, and treat a lone `}` as an error; inside a field
(`some acc` state) accumulate the field name until `}` and splice the
looked-up value.  `none` overall models a `KeyError`/`ValueError`. -/
def fmtGo (env : String → Option String) : Option (List Char) → List Char → Option (List Char)
  | none, [] => some []
  | none, '{' :: '{' :: rest => (fmtGo env none rest).map (fun l => '{' :: l)
  | none, '}' :: '}' :: rest => (fmtGo env none rest).map (fun l => '}' :: l)
  | none, '{' :: rest => fmtGo env (some []) rest
  | none, '}' :: _ => none
  | none, c :: rest => (fmtGo env none rest).map (fun l => c :: l)
  | some _, [] => none
  | some acc, '}' :: rest => do
    let v ← env (String.mk acc.reverse)
    let out ← fmtGo env none rest
    some (v.data ++ out)
  | some acc, c :: rest => fmtGo env (some (c :: acc)) rest

/-- Embedding of Python `template.format(**kwargs)` as used by the handler. -/
def pyFormat (template : String) (env : String → Option String) : Option String :=
  (fmtGo env none template.data).map String.mk

/-- Default `format` configuration value of the handler (tsdb.py 128-129). -/
def defaultFormat : String :=
  "{Collector}.{Metric} {timestamp} {value} hostname={host}{tags}"

/-- Embedding of the tag string built by `TSDBHandler.process` with cleaning
enabled (tsdb.py 147-154): the static tag string followed by
`" key=value"` for every tag of the wrapper, in dictionary order. -/
def tagsForMetric (staticTags : String) (tags : List (String × String)) : String :=
  tags.foldl (fun acc kv => acc ++ " " ++ kv.1 ++ "=" ++ kv.2) staticTags

/-- Embedding of `TSDBHandler.process` (tsdb.py 143-166).  The result is
`Except.error ()` when an exception escapes (wrapper construction or
`str.format`), `Except.ok none` when the metric is dropped by the aggregate
filter, and `Except.ok (some line)` when the line handed to `_send` is
`line`. -/
def process (cfg : Config) (m : RawMetric) : Except Unit (Option String) :=
  if cfg.cleanMetrics then
    match processMetric m with
    | none => .error ()
    | some w =>
      if cfg.skipAggregates && w.isAggregate then .ok none
      else
        match pyFormat cfg.metric_format
          (renderEnv w.getCollectorPath w.path w.getMetricPath w.delegate.host
            w.delegate.timestamp w.delegate.value
            (tagsForMetric cfg.tags w.getTags)) with
        | none => .error ()
        | some line => .ok (some ("put " ++ line ++ "\n"))
  else
    match pyFormat cfg.metric_format
      (renderEnv m.collectorPath m.path m.metricPath m.host m.timestamp m.value
        cfg.tags) with
    | none => .error ()
    | some line => .ok (some ("put " ++ line ++ "\n"))

/-- The `tags` configuration value accepted by `TSDBHandler.__init__`
(tsdb.py 80-84): either a single string or a list of strings. -/
inductive TagsCfg where
  | str (s : String)
  | list (l : List String)

/-- Embedding of tsdb.py 79-84: start from `""`; a string value is taken as
is, a list value is folded with a leading space before every element. -/
def buildTags : TagsCfg → String
  | .str s => s
  | .list l => l.foldl (fun acc tag => acc ++ " " ++ tag) ""

/-- Embedding of tsdb.py 85-86: prepend a space unless the string is empty
or already starts with one. -/
def normTags (t : TagsCfg) : String :=
  let tags := buildTags t
  if tags ≠ "" && !(pyStartsWith " " tags) then " " ++ tags else tags

/-- Embedding of the tag validation loop of `TSDBHandler.__init__`
(tsdb.py 88-92): split the normalized tag string on single spaces and raise
on the first token containing more than one `=`. -/
def initTags (t : TagsCfg) : Except String String :=
  let tags := normTags t
  match (splitC ' ' tags).find? (fun tok => countC '=' tok > 1) with
  | some tok => .error ("Invalid tag name " ++ tok)
  | none => .ok tags

/-- Outcome of one `_connect` call, as seen from the embedded state machine
(tsdb.py 200-226): `socket.socket(...)` itself raising, `connect` raising
inside the `try`, or a successful connection. -/
inductive ConnectEnv where
  | createRaises
  | connectFails
  | connectOk
deriving DecidableEq

/-- Embedding of `TSDBHandler._connect` (tsdb.py 200-226) acting on the
`self.socket` field (`Option Unit`).  `socket.socket(...)` is called outside
any `try`, so a creation failure escapes as `Except.error ()`; the guard
`if socket is None` on line 206 tests the `socket` module, which is never
`None`, so that branch is dead and is not reachable in the embedding.  A
`connect` failure is caught: it logs, calls `_close` and leaves the field
`None`.  Success stores the new socket. -/
def tsdbConnect (e : ConnectEnv) : Except Unit (Option Unit) :=
  match e with
  | .createRaises => .error ()
  | .connectFails => .ok none
  | .connectOk => .ok (some ())

/-- Embedding of `TSDBHandler._close` (tsdb.py 228-234) on the socket field:
close any existing socket and set the field to `None`. -/
def tsdbClose (s : Option Unit) : Option Unit := none

/-- The retry budget constant `TSDBHandler.RETRY` (tsdb.py 62). -/
def RETRY : Nat := 3

/-- External-world oracle for one `_send` call: the outcome of the i-th
`_connect` invocation and of the i-th `sendall` invocation. -/
structure SendEnv where
  connect : Nat → ConnectEnv
  send : Nat → Bool

/-- Observable result of a `_send` call: final socket field, number of loop
iterations entered, and the chunks actually transmitted. -/
structure SendResult where
  sock : Option Unit
  attempts : Nat
  sent : List String
deriving DecidableEq

/-- Embedding of the retry loop of `TSDBHandler._send` (tsdb.py 172-198):
while attempts remain, a missing socket triggers `_connect` and consumes an
attempt (an uncaught `_connect` exception escapes); otherwise `sendall`
either succeeds (break) or raises `socket.error`, which is caught, closes
the socket and consumes an attempt. -/
def sendLoop (env : SendEnv) (data : String) :
    Nat → Nat → Nat → Option Unit → Nat → List String → Except Unit SendResult
  | 0, _, _, sock, attempts, sent => .ok ⟨sock, attempts, sent⟩
  | retry + 1, ci, si, sock, attempts, sent =>
    match sock with
    | none =>
      match tsdbConnect (env.connect ci) with
      | .error e => .error e
      | .ok sock' => sendLoop env data retry (ci + 1) si sock' (attempts + 1) sent
    | some s =>
      if env.send si then .ok ⟨some s, attempts + 1, sent ++ [data]⟩
      else sendLoop env data retry ci (si + 1) (tsdbClose (some s)) (attempts + 1) sent

/-- Embedding of `TSDBHandler._send` (tsdb.py 168-198): run the retry loop
with a fresh budget of `RETRY` attempts. -/
def tsdbSend (env : SendEnv) (sock : Option Unit) (data : String) :
    Except Unit SendResult :=
  sendLoop env data RETRY 0 0 sock 0 []

theorem str_data_append (a b : String) : (a ++ b).data = a.data ++ b.data := rfl

theorem str_mk_data (s : String) : String.mk s.data = s := rfl

theorem getMetricPath_mkWrapper (d : RawMetric) :
    (mkWrapper d).getMetricPath = d.metricPath := by
  unfold MetricWrapper.getMetricPath mkWrapper RawMetric.path
  have hdata : (d.pathPrefix ++ "." ++ d.collectorPath ++ "." ++ d.metricPath).data =
      (d.pathPrefix ++ "." ++ d.collectorPath ++ ".").data ++ d.metricPath.data := by
    simp [str_data_append, List.append_assoc]
  simp only [hdata, isPrefixOf_self_append, if_true, List.drop_left, str_mk_data]

theorem mattermostTeamBranch_aggregate (split : List String) (s0 : String)
    (w w' : MetricWrapper) (h : mattermostTeamBranch split s0 w = some w') :
    w'.aggregate = w.aggregate := by
  unfold mattermostTeamBranch at h
  split at h
  · split at h
    · injection h with h
      subst h
      rfl
    · exact absurd h (by simp)
  · injection h with h
    subst h
    rfl

theorem mattermostChannelBranch_aggregate (split : List String) (s0 : String)
    (w w' : MetricWrapper) (h : mattermostChannelBranch split s0 w = some w') :
    w'.aggregate = w.aggregate := by
  unfold mattermostChannelBranch at h
  split at h
  · split at h
    · injection h with h
      subst h
      rfl
    · exact absurd h (by simp)
  · injection h with h
    subst h
    rfl

theorem mattermostUserBranch_aggregate (split : List String) (s0 : String)
    (w w' : MetricWrapper) (h : mattermostUserBranch split s0 w = some w') :
    w'.aggregate = w.aggregate := by
  unfold mattermostUserBranch at h
  split at h
  · split at h
    · injection h with h
      subst h
      rfl
    · exact absurd h (by simp)
  · injection h with h
    subst h
    rfl

theorem mattermost_aggregate (w w' : MetricWrapper)
    (h : processMattermostMetric w = some w') : w'.aggregate = w.aggregate := by
  simp only [processMattermostMetric] at h
  split at h
  · split at h
    · exact absurd h (by simp)
    · split at h
      · exact absurd h (by simp)
      · split at h
        · exact absurd h (by simp)
        · rename_i scrut2 wa hteam scrut3 wb hchan
          rw [mattermostUserBranch_aggregate _ _ _ _ h,
            mattermostChannelBranch_aggregate _ _ _ _ hchan,
            mattermostTeamBranch_aggregate _ _ _ _ hteam]
  · injection h with h
    subst h
    rfl

example : (("cpu" : String) = "haproxy") ↔ False := by simp

/-- C3: for every collector identifier and dotted metric path, when tag
extraction succeeds, the aggregate flag is true if and only if the collector
is `cpu` with more than one metric-path segment and segment 0 equal to
`"total"`, or the collector is `haproxy` with exactly three segments and
segment 1 equal to `"backend"`; it is false for every other collector and
for cpu/haproxy paths whose segment-count precondition fails. -/
theorem aggregate_iff (d : RawMetric) (w : MetricWrapper) (hw : processMetric d = some w) :
    (w.aggregate = true ↔
      (d.collectorPath = "cpu" ∧ 1 < (splitC '.' d.metricPath).length ∧
        (splitC '.' d.metricPath).get? 0 = some "total") ∨
      (d.collectorPath = "haproxy" ∧ (splitC '.' d.metricPath).length = 3 ∧
        (splitC '.' d.metricPath).get? 1 = some "backend")) := by
  unfold processMetric dispatchHandler at hw
  by_cases h1 : d.collectorPath = "cpu"
  · rw [if_pos h1] at hw
    unfold processCpuMetric at hw
    rw [getMetricPath_mkWrapper] at hw
    simp only [mkWrapper] at hw
    by_cases h2 : 1 < (splitC '.' d.metricPath).length
    · rw [if_pos h2] at hw
      split at hw
      · rename_i s0 cpuId heq1 heq2
        injection hw with hw
        subst hw
        rw [h1]
        rw [List.get?_eq_getElem?] at heq1
        simp [h2, heq1, beq_iff_eq]
      · exact absurd hw (by simp)
    · rw [if_neg h2] at hw
      injection hw with hw
      subst hw
      rw [h1]
      simp [h2]
  · rw [if_neg h1] at hw
    by_cases h3 : d.collectorPath = "haproxy"
    · rw [if_pos h3] at hw
      unfold processHaProxyMetric at hw
      rw [getMetricPath_mkWrapper] at hw
      simp only [mkWrapper] at hw
      by_cases h4 : (splitC '.' d.metricPath).length = 3
      · rw [if_pos (by simp [h4] : ((splitC '.' d.metricPath).length == 3) = true)] at hw
        split at hw
        · rename_i s1 backend server heq1 heq2 heq3
          injection hw with hw
          subst hw
          rw [h3]
          rw [List.get?_eq_getElem?] at heq1
          simp [h1, h4, heq1, beq_iff_eq]
        · exact absurd hw (by simp)
      · rw [if_neg (by simp [h4] : ¬ ((splitC '.' d.metricPath).length == 3) = true)] at hw
        injection hw with hw
        subst hw
        rw [h3]
        simp [h1, h4]
    · rw [if_neg h3] at hw
      have hfalse : w.aggregate = false := by
        by_cases h5 : d.collectorPath = "mattermost"
        · rw [if_pos h5] at hw
          rw [mattermost_aggregate (mkWrapper d) w hw]
          rfl
        · rw [if_neg h5] at hw
          by_cases h6 : d.collectorPath = "diskspace"
          · rw [if_pos h6] at hw
            unfold processDiskspaceMetric at hw
            split at hw
            · split at hw
              · injection hw with hw; subst hw; rfl
              · exact absurd hw (by simp)
            · injection hw with hw; subst hw; rfl
          · rw [if_neg h6] at hw
            by_cases h7 : d.collectorPath = "iostat"
            · rw [if_pos h7] at hw
              unfold processDiskusageMetric at hw
              split at hw
              · split at hw
                · injection hw with hw; subst hw; rfl
                · exact absurd hw (by simp)
              · injection hw with hw; subst hw; rfl
            · rw [if_neg h7] at hw
              by_cases h8 : d.collectorPath = "network"
              · rw [if_pos h8] at hw
                unfold processNetworkMetric at hw
                split at hw
                · split at hw
                  · injection hw with hw; subst hw; rfl
                  · exact absurd hw (by simp)
                · injection hw with hw; subst hw; rfl
              · rw [if_neg h8] at hw
                unfold processDefaultMetric at hw
                injection hw with hw
                subst hw
                rfl
      rw [hfalse]
      simp [h1, h3]

/-- Witness for `aggregate_iff`: a concrete `cpu` metric with path
`total.idle` whose extraction succeeds and whose aggregate flag is true. -/
theorem aggregate_iff_witness :
    processMetric
      { pathPrefix := "servers.h", collectorPath := "cpu", metricPath := "total.idle",
        host := "h", timestamp := "123", value := "1", raw_value := "1",
        precision := 0, ttl := 0, metric_type := "GAUGE" } = some
      { delegate :=
          { pathPrefix := "servers.h", collectorPath := "cpu", metricPath := "total.idle",
            host := "h", timestamp := "123", value := "1", raw_value := "1",
            precision := 0, ttl := 0, metric_type := "GAUGE" },
        path := "servers.h.cpu.idle", tags := [("cpuId", "total")], aggregate := true } ∧
    (({ delegate :=
          { pathPrefix := "servers.h", collectorPath := "cpu", metricPath := "total.idle",
            host := "h", timestamp := "123", value := "1", raw_value := "1",
            precision := 0, ttl := 0, metric_type := "GAUGE" },
        path := "servers.h.cpu.idle", tags := [("cpuId", "total")],
        aggregate := true } : MetricWrapper).aggregate = true ↔
      (("cpu" : String) = "cpu" ∧ 1 < (splitC '.' ("total.idle" : String)).length ∧
        (splitC '.' ("total.idle" : String)).get? 0 = some "total") ∨
      (("cpu" : String) = "haproxy" ∧ (splitC '.' ("total.idle" : String)).length = 3 ∧
        (splitC '.' ("total.idle" : String)).get? 1 = some "backend")) :=
  ⟨by decide,
    aggregate_iff
      { pathPrefix := "servers.h", collectorPath := "cpu", metricPath := "total.idle",
        host := "h", timestamp := "123", value := "1", raw_value := "1",
        precision := 0, ttl := 0, metric_type := "GAUGE" }
      { delegate :=
          { pathPrefix := "servers.h", collectorPath := "cpu", metricPath := "total.idle",
            host := "h", timestamp := "123", value := "1", raw_value := "1",
            precision := 0, ttl := 0, metric_type := "GAUGE" },
        path := "servers.h.cpu.idle", tags := [("cpuId", "total")], aggregate := true }
      (by decide)⟩

/-- C9: `_close` is idempotent: from any starting socket state, closing
leaves the manager disconnected (the socket field unset), it never raises
(the embedding is a total function), and closing twice equals closing
once. -/
theorem close_idempotent (s : Option Unit) :
    tsdbClose (tsdbClose s) = tsdbClose s ∧ tsdbClose s = none :=
  ⟨rfl, rfl⟩

/-- C5: when every connect attempt fails with the caught kind of failure
(the socket field stays unset on each reconnect), one `_send` call makes
exactly `RETRY = 3` attempts, transmits nothing, returns without raising,
and ends with the socket field unset — so the next `_send` call starts
again from the same state with a fresh budget of `RETRY` attempts. -/
theorem send_all_connect_failures (env : SendEnv) (data : String)
    (h : ∀ n, env.connect n = ConnectEnv.connectFails) :
    tsdbSend env none data = .ok ⟨none, 3, []⟩ := by
  unfold tsdbSend RETRY
  simp [sendLoop, tsdbConnect, h 0, h 1, h 2]

/-- Witness for `send_all_connect_failures` at a concrete environment. -/
theorem send_all_connect_failures_witness :
    tsdbSend ⟨fun _ => ConnectEnv.connectFails, fun _ => false⟩ none "put x\n" =
      .ok ⟨none, 3, []⟩ :=
  send_all_connect_failures ⟨fun _ => ConnectEnv.connectFails, fun _ => false⟩
    "put x\n" (fun _ => rfl)

/-- The concrete metric exhibiting the tsdb.py 333-336 crash: collector
`mattermost`, metric path `userdetails.a.b` with exactly three segments. -/
def mattermostUserdetails3 : RawMetric :=
  { pathPrefix := "servers.h", collectorPath := "mattermost",
    metricPath := "userdetails.a.b",
    host := "h", timestamp := "123", value := "1", raw_value := "1",
    precision := 0, ttl := 0, metric_type := "GAUGE" }

/-- C2: the extraction step raises on collector `mattermost` with segment 0
equal to `"userdetails"` and exactly three segments: `len(split) > 2` holds,
so the guard passes, but `split[3]` is out of bounds and the embedded run
returns `none` (the `IndexError`) instead of degrading to a no-op. -/
theorem mattermost_userdetails_three_segments_raises :
    (splitC '.' mattermostUserdetails3.metricPath).length > 2 ∧
    processMetric mattermostUserdetails3 = none := by
  decide

/-- C4: the tag validation of `TSDBHandler.__init__` rejects the
comma-separated tag string that the module docstring (tsdb.py 37-38) gives
as its own example: the whole string is one space-delimited token with two
`=` characters, so construction raises instead of succeeding. -/
theorem init_rejects_documented_comma_example :
    initTags (.str "environment=test,datacenter=north") =
      .error "Invalid tag name environment=test,datacenter=north" := by
  decide

/-- C8: when OS socket creation itself fails, `_connect` raises to its
caller: `socket.socket(...)` (tsdb.py 205) runs outside any `try`, and the
`if socket is None` guard on line 206 tests the `socket` module, never the
new socket, so the creation-failure branch is dead and the exception
escapes.  The caught kinds of failure do leave the manager disconnected
without raising. -/
theorem connect_creation_failure_escapes :
    tsdbConnect ConnectEnv.createRaises = .error () ∧
    tsdbConnect ConnectEnv.connectFails = .ok none :=
  ⟨rfl, rfl⟩

/-- Scenario B metric of the spec: collector `cpu`, metric path
`total.idle`. -/
def scenarioB : RawMetric :=
  { pathPrefix := "servers.h", collectorPath := "cpu", metricPath := "total.idle",
    host := "h", timestamp := "123", value := "1", raw_value := "1",
    precision := 0, ttl := 0, metric_type := "GAUGE" }

/-- The wrapper state produced for `scenarioB`. -/
def scenarioBWrapper : MetricWrapper :=
  { delegate := scenarioB, path := "servers.h.cpu.idle",
    tags := [("cpuId", "total")], aggregate := true }

/-- C7: for a `cpu` metric with metric path `total.idle`, extraction yields
the tag set `{cpuId: "total"}`, aggregate flag true, and rewritten metric
path `idle` (the `cpuId` segment removed from the full path). -/
theorem cpu_scenarioB_extraction :
    processMetric scenarioB = some scenarioBWrapper ∧
    scenarioBWrapper.tags = [("cpuId", "total")] ∧
    scenarioBWrapper.aggregate = true ∧
    scenarioBWrapper.getMetricPath = "idle" := by
  decide

theorem pyFormat_Path (c p mp h t v tg : String) :
    pyFormat "{Path}" (renderEnv c p mp h t v tg) = some p := by
  have h1 : pyFormat "{Path}" (renderEnv c p mp h t v tg) = some (String.mk (p.data ++ [])) := rfl
  rw [h1]
  congr 1
  apply String.ext
  simp

theorem pyFormat_default (c p mp h t v tg : String) :
    pyFormat defaultFormat (renderEnv c p mp h t v tg) =
      some (c ++ "." ++ mp ++ " " ++ t ++ " " ++ v ++ " hostname=" ++ h ++ tg) := by
  have h1 : pyFormat defaultFormat (renderEnv c p mp h t v tg) =
      some (String.mk (c.data ++ '.' :: (mp.data ++ ' ' :: (t.data ++ ' ' ::
        (v.data ++ ' ' :: 'h' :: 'o' :: 's' :: 't' :: 'n' :: 'a' :: 'm' :: 'e' :: '=' ::
          (h.data ++ (tg.data ++ []))))))) := rfl
  rw [h1]
  congr 1
  apply String.ext
  simp only [str_data_append, List.append_assoc, List.cons_append, List.nil_append,
    show (("."):String).data = ['.'] from rfl,
    show ((" "):String).data = [' '] from rfl,
    show ((" hostname="):String).data = [' ','h','o','s','t','n','a','m','e','='] from rfl,
    List.append_nil]

def cleanCfgPath : Config :=
  { metric_format := "{Path}", tags := "", skipAggregates := true, cleanMetrics := true }

def scenarioA : RawMetric :=
  { pathPrefix := "servers.h", collectorPath := "cpu", metricPath := "3.idle",
    host := "h", timestamp := "123", value := "1", raw_value := "1",
    precision := 0, ttl := 0, metric_type := "GAUGE" }

def scenarioAWrapper : MetricWrapper :=
  { delegate := scenarioA, path := "servers.h.cpu.idle",
    tags := [("cpuId", "3")], aggregate := false }

/-- C6 counterexample: with cleaning enabled and the template `{Path}`, the
line sent for a `cpu` metric renders `{Path}` as the rewritten full path
`servers.h.cpu.idle`, which differs from the full original dotted path
`servers.h.cpu.3.idle` the claim requires. -/
theorem path_placeholder_counterexample :
    process cleanCfgPath scenarioA = .ok (some "put servers.h.cpu.idle\n") ∧
    scenarioA.path = "servers.h.cpu.3.idle" ∧
    (Except.ok (some ("put " ++ scenarioA.path ++ "\n")) : Except Unit (Option String)) ≠
      .ok (some "put servers.h.cpu.idle\n") := by
  decide

/-- C6 (amended): for every metric processed with cleaning enabled, the
`{Path}` placeholder in the rendered output line equals the wrapper's full
dotted path after any rewrite performed by the collector rule (the rule
mutates the `path` field before formatting), not the path as received. -/
theorem path_placeholder_is_rewritten_path (cfg : Config) (m : RawMetric)
    (w : MetricWrapper) (hclean : cfg.cleanMetrics = true)
    (hfmt : cfg.metric_format = "{Path}") (hw : processMetric m = some w)
    (hskip : (cfg.skipAggregates && w.isAggregate) = false) :
    process cfg m = .ok (some ("put " ++ w.path ++ "\n")) := by
  unfold process
  rw [hw, hfmt]
  simp [hclean, hskip, pyFormat_Path]

/-- Witness for `path_placeholder_is_rewritten_path` at a concrete metric. -/
theorem path_placeholder_witness :
    process cleanCfgPath scenarioA =
      .ok (some ("put " ++ scenarioAWrapper.path ++ "\n")) :=
  path_placeholder_is_rewritten_path cleanCfgPath scenarioA scenarioAWrapper rfl rfl
    (by decide) (by decide)

/-- C10: when `cleanMetrics` is false, `process` never drops a metric: the
aggregate check runs only inside the cleaning branch, so regardless of
`skipAggregates` the result is never the silent-drop outcome `.ok none`,
and with the default template the metric is rendered from its unmodified
fields and sent. -/
theorem noclean_always_sends (cfg : Config) (m : RawMetric)
    (hclean : cfg.cleanMetrics = false) :
    process cfg m ≠ .ok none ∧
    (cfg.metric_format = defaultFormat →
      process cfg m = .ok (some ("put " ++ (m.collectorPath ++ "." ++ m.metricPath ++ " "
        ++ m.timestamp ++ " " ++ m.value ++ " hostname=" ++ m.host ++ cfg.tags)
        ++ "\n"))) := by
  unfold process
  simp only [hclean, Bool.false_eq_true, if_false]
  constructor
  · cases hp : pyFormat cfg.metric_format (renderEnv m.collectorPath m.path m.metricPath
      m.host m.timestamp m.value cfg.tags) with
    | none => simp
    | some line => simp
  · intro hfmt
    rw [hfmt, pyFormat_default]

def cpuTotalMetric : RawMetric :=
  { pathPrefix := "servers.h", collectorPath := "cpu", metricPath := "total.idle",
    host := "h", timestamp := "123", value := "1", raw_value := "1",
    precision := 0, ttl := 0, metric_type := "GAUGE" }

def nocleanCfg : Config :=
  { metric_format := defaultFormat, tags := " env=prod",
    skipAggregates := true, cleanMetrics := false }

/-- Witness for `noclean_always_sends`: an aggregate cpu `total` metric with
`skipAggregates = true` is still forwarded when `cleanMetrics` is false. -/
theorem noclean_always_sends_witness :
    process nocleanCfg cpuTotalMetric ≠ .ok none ∧
    process nocleanCfg cpuTotalMetric =
      .ok (some "put cpu.total.idle 123 1 hostname=h env=prod\n") :=
  ⟨(noclean_always_sends nocleanCfg cpuTotalMetric rfl).1,
    (noclean_always_sends nocleanCfg cpuTotalMetric rfl).2 rfl⟩

theorem dot_data : (("."):String).data = ['.'] := rfl

theorem string_mk_inj : Function.Injective String.mk := by
  intro a b h
  injection h

theorem path_data (d : RawMetric) :
    d.path.data =
      d.pathPrefix.data ++ '.' :: (d.collectorPath.data ++ '.' :: d.metricPath.data) := by
  show (d.pathPrefix ++ "." ++ d.collectorPath ++ "." ++ d.metricPath).data = _
  simp [str_data_append, dot_data]

theorem path_splitCL (d : RawMetric) :
    splitCL '.' d.path.data =
      (splitCL '.' d.pathPrefix.data ++ splitCL '.' d.collectorPath.data) ++
        splitCL '.' d.metricPath.data := by
  rw [path_data, splitCL_append, splitCL_append, List.append_assoc]

/-- Occurrence count of a value in a list (used to state that a tag value
occurs exactly once as a path segment). -/
def countL {α : Type} [DecidableEq α] : List α → α → Nat
  | [], _ => 0
  | x :: xs, v => (if x = v then 1 else 0) + countL xs v

theorem countL_append {α : Type} [DecidableEq α] (a b : List α) (v : α) :
    countL (a ++ b) v = countL a v + countL b v := by
  induction a with
  | nil => simp [countL]
  | cons x xs ih => simp [countL, ih]; omega

theorem countL_eq_zero {α : Type} [DecidableEq α] (l : List α) (v : α) :
    countL l v = 0 ↔ v ∉ l := by
  induction l with
  | nil => simp [countL]
  | cons x xs ih =>
    by_cases hx : x = v
    · simp [countL, hx]
    · rw [show countL (x :: xs) v = countL xs v by simp [countL, hx], ih]
      simp only [List.mem_cons]
      constructor
      · intro h hmem
        rcases hmem with he | hm
        · exact hx he.symm
        · exact h hm
      · intro h hmem
        exact h (Or.inr hmem)

theorem countL_map_inj {α β : Type} [DecidableEq α] [DecidableEq β] (f : α → β)
    (hf : Function.Injective f) (l : List α) (v : α) :
    countL (l.map f) (f v) = countL l v := by
  induction l with
  | nil => simp [countL]
  | cons x xs ih =>
    by_cases hx : x = v
    · simp [countL, hx, ih]
    · have : f x ≠ f v := fun he => hx (hf he)
      simp [countL, hx, this, ih]

theorem count_one_decomp {α : Type} [DecidableEq α] (xs ys : List α) (v : α)
    (h : countL (xs ++ v :: ys) v = 1) : v ∉ xs ∧ v ∉ ys := by
  rw [countL_append, show countL (v :: ys) v = 1 + countL ys v by simp [countL]] at h
  constructor <;> rw [← countL_eq_zero] <;> omega

theorem splitC_count (s v : String) :
    countL (splitC '.' s) v = countL (splitCL '.' s.data) v.data := by
  unfold splitC
  rw [← str_mk_data v, countL_map_inj String.mk string_mk_inj]

theorem splitC_mem (s v : String) :
    v ∈ splitC '.' s ↔ v.data ∈ splitCL '.' s.data := by
  unfold splitC
  constructor
  · intro h
    rcases List.mem_map.mp h with ⟨l, hl, he⟩
    have : l = v.data := by rw [← he]
    rw [← this]
    exact hl
  · intro h
    exact List.mem_map.mpr ⟨v.data, h, str_mk_data v⟩

theorem splitC_length (s : String) :
    (splitC '.' s).length = (splitCL '.' s.data).length := by
  unfold splitC
  exact List.length_map _ _

theorem splitC_get? (s : String) (i : Nat) :
    (splitC '.' s).get? i = ((splitCL '.' s.data).get? i).map String.mk := by
  unfold splitC
  exact List.get?_map _ _ _

theorem splitC_get?_data (s v : String) (i : Nat)
    (h : (splitC '.' s).get? i = some v) :
    (splitCL '.' s.data).get? i = some v.data := by
  rw [splitC_get?] at h
  cases hgg : (splitCL '.' s.data).get? i with
  | none => rw [hgg] at h; simp at h
  | some l =>
    rw [hgg] at h
    simp only [Option.map_some'] at h
    injection h with h
    have : l = v.data := by rw [← h]
    rw [this]

theorem pyReplace_eq (s x : String) :
    pyReplace s ("." ++ x ++ ".") "." =
      String.mk (pyR '.' (x.data ++ ['.']) ['.'] s.data) := rfl

/-- Removing one designated occurrence of the piece `v` from a path whose
pieces are `xs ++ v :: ys`, when `v` occurs exactly once as a piece: the
rewritten path splits into `xs ++ ys` and `v` is gone. -/
theorem removal_master (path v : String) (xs ys : List (List Char))
    (hsplit : splitCL '.' path.data = xs ++ v.data :: ys)
    (hxs : xs ≠ []) (hys : ys ≠ [])
    (hcnt : countL (splitCL '.' path.data) v.data = 1) :
    splitCL '.' (pyReplace path ("." ++ v ++ ".") ".").data = xs ++ ys ∧
    v.data ∉ xs ++ ys := by
  have hdf : ∀ x ∈ xs ++ v.data :: ys, '.' ∉ x := by
    intro x hx
    exact sep_not_mem_splitCL '.' path.data x (by rw [hsplit]; exact hx)
  have hdfxs : ∀ x ∈ xs, '.' ∉ x := fun x hx => hdf x (List.mem_append_left _ hx)
  have hdfys : ∀ x ∈ ys, '.' ∉ x := fun x hx =>
    hdf x (List.mem_append_right _ (List.mem_cons_of_mem _ hx))
  have hdfv : '.' ∉ v.data := hdf v.data (List.mem_append_right _ (List.mem_cons_self _ _))
  rw [hsplit] at hcnt
  obtain ⟨hvxs, hvys⟩ := count_one_decomp xs ys v.data hcnt
  have hpathdata : path.data = joinC '.' (xs ++ v.data :: ys) := by
    rw [← hsplit, joinC_splitCL]
  have hne : xs ++ ys ≠ [] := by
    intro h
    exact hxs (List.append_eq_nil.mp h).1
  have hrepl : (pyReplace path ("." ++ v ++ ".") ".").data = joinC '.' (xs ++ ys) := by
    rw [pyReplace_eq]
    show pyR '.' (v.data ++ ['.']) ['.'] path.data = _
    rw [hpathdata]
    exact pyR_remove '.' v.data hdfv xs ys hxs hys hdfxs hdfys hvxs hvys
  refine ⟨?_, ?_⟩
  · rw [hrepl]
    exact splitCL_joinC '.' (xs ++ ys) hne (fun x hx => by
      rcases List.mem_append.mp hx with h | h
      · exact hdfxs x h
      · exact hdfys x h)
  · intro hmem
    rcases List.mem_append.mp hmem with h | h
    · exact hvxs h
    · exact hvys h

/-- A tag value taken from a metric-path segment position with at least one
segment after it, occurring exactly once as a segment of the full path, is
removed cleanly: the rewritten path splits into the remaining segments and
no longer contains the value. -/
theorem seg_removal_safe (d : RawMetric) (v : String) (pre post : List (List Char))
    (hM : splitCL '.' d.metricPath.data = pre ++ v.data :: post) (hpost : post ≠ [])
    (hc : countL (splitC '.' d.path) v = 1) :
    splitCL '.' (pyReplace d.path ("." ++ v ++ ".") ".").data =
      ((splitCL '.' d.pathPrefix.data ++ splitCL '.' d.collectorPath.data) ++ pre)
        ++ post ∧
    v ∉ splitC '.' (pyReplace d.path ("." ++ v ++ ".") ".") := by
  have hsplit : splitCL '.' d.path.data =
      ((splitCL '.' d.pathPrefix.data ++ splitCL '.' d.collectorPath.data) ++ pre)
        ++ v.data :: post := by
    rw [path_splitCL, hM]
    simp [List.append_assoc]
  have hxs : (splitCL '.' d.pathPrefix.data ++ splitCL '.' d.collectorPath.data)
      ++ pre ≠ [] := by
    intro h
    exact splitCL_ne_nil '.' d.pathPrefix.data
      (List.append_eq_nil.mp (List.append_eq_nil.mp h).1).1
  have hc' : countL (splitCL '.' d.path.data) v.data = 1 := by
    rw [← splitC_count]
    exact hc
  obtain ⟨hres, hmem⟩ := removal_master d.path v _ _ hsplit hxs hpost hc'
  refine ⟨hres, ?_⟩
  rw [splitC_mem, hres]
  exact hmem


/-- A value absent from the nonempty left part of an append is not the
head of the append. -/
theorem head_ne_of_not_mem {α : Type} (A B : List α) (vd : α)
    (hA : A ≠ []) (hv : vd ∉ A) : (A ++ B).head? ≠ some vd := by
  cases A with
  | nil => exact absurd rfl hA
  | cons a A2 =>
    intro h
    simp only [List.cons_append, List.head?_cons, Option.some.injEq] at h
    apply hv
    rw [← h]
    exact List.mem_cons_self a A2

/-- Dropping the head of a list with a nonempty tail keeps `getLast?`. -/
theorem getLast?_cons_ne {α : Type} (x : α) (L : List α) (h : L ≠ []) :
    (x :: L).getLast? = L.getLast? := by
  cases L with
  | nil => exact absurd rfl h
  | cons a t => exact List.getLast?_cons_cons

/-- A value absent from the nonempty right part of an append is not the
last element of the append. -/
theorem last_ne_of_decomp {α : Type} (A B : List α) (vd : α)
    (hB : B ≠ []) (hv : vd ∉ B) : (A ++ B).getLast? ≠ some vd := by
  rw [List.getLast?_append_of_ne_nil A hB]
  intro h
  exact hv (List.mem_of_mem_getLast? h)

/-- A list in which a value occurs exactly once splits at that
occurrence, with the value absent on both sides. -/
theorem count_one_split {α : Type} [DecidableEq α] (S : List α) (v : α)
    (h : countL S v = 1) : ∃ xs ys, S = xs ++ v :: ys ∧ v ∉ xs ∧ v ∉ ys := by
  induction S with
  | nil => simp [countL] at h
  | cons a S2 ih =>
    by_cases ha : a = v
    · have h0 : countL S2 v = 0 := by
        rw [show countL (a :: S2) v = 1 + countL S2 v by simp [countL, ha]] at h
        omega
      exact ⟨[], S2, by rw [ha]; rfl, by simp, (countL_eq_zero S2 v).mp h0⟩
    · have h1 : countL S2 v = 1 := by
        rw [show countL (a :: S2) v = countL S2 v by simp [countL, ha]] at h
        exact h
      obtain ⟨xs, ys, he, hx, hy⟩ := ih h1
      refine ⟨a :: xs, ys, by rw [he]; simp, ?_, hy⟩
      intro hmem
      rcases List.mem_cons.mp hmem with h2 | h2
      · exact ha h2.symm
      · exact hx h2

/-- A value which occurs exactly once and is neither the head nor the
last element splits the list with nonempty sides. -/
theorem decomp_from_count (S : List (List Char)) (vd : List Char)
    (hc : countL S vd = 1)
    (hhead : S.head? ≠ some vd) (hlast : S.getLast? ≠ some vd) :
    ∃ xs ys, S = xs ++ vd :: ys ∧ xs ≠ [] ∧ ys ≠ [] ∧ vd ∉ xs ∧ vd ∉ ys := by
  obtain ⟨xs, ys, he, hx, hy⟩ := count_one_split S vd hc
  refine ⟨xs, ys, he, ?_, ?_, hx, hy⟩
  · intro h0
    apply hhead
    rw [he, h0]
    rfl
  · intro h0
    apply hlast
    rw [he, h0]
    exact List.getLast?_concat xs

/-- Transfer of a last-segment disequality from the string-level split to
the character-level split. -/
theorem splitC_getLast?_ne (s v : String)
    (h : (splitC '.' s).getLast? ≠ some v) :
    (splitCL '.' s.data).getLast? ≠ some v.data := by
  intro hc
  apply h
  unfold splitC
  rw [List.getLast?_map, hc]
  rfl

/-- General effect of one dot-bounded replacement pass on a joined list of
separator-free pieces: the result is again a joined piece list, obtained
from the original by deleting some interior occurrences of the pattern
piece `v`.  In particular the first and the last piece always survive (the
pattern needs a delimiter on each side), the occurrence count of every
other piece value is unchanged, and no new piece appears. -/
theorem pyR_sublist (v : List Char) (hv : '.' ∉ v) :
    ∀ (n : Nat) (S : List (List Char)), S.length ≤ n → S ≠ [] →
      (∀ x ∈ S, '.' ∉ x) →
      ∃ S2 : List (List Char),
        pyR '.' (v ++ ['.']) ['.'] (joinC '.' S) = joinC '.' S2 ∧
        S2 ≠ [] ∧ S2.head? = S.head? ∧ S2.getLast? = S.getLast? ∧
        (∀ u, u ≠ v → countL S2 u = countL S u) ∧
        (∀ x ∈ S2, x ∈ S) := by
  intro n
  induction n with
  | zero =>
    intro S hlen hne _
    cases S with
    | nil => exact absurd rfl hne
    | cons a b => simp at hlen
  | succ n ih =>
    intro S hlen hne hdf
    cases S with
    | nil => exact absurd rfl hne
    | cons x S1 =>
      cases S1 with
      | nil =>
        refine ⟨[x], ?_, by simp, rfl, rfl, fun u _ => rfl, fun y hy => hy⟩
        exact pyR_self '.' (v ++ ['.']) ['.'] x (hdf x (by simp))
      | cons y S3 =>
        have hxdf : '.' ∉ x := hdf x (by simp)
        have hstep : pyR '.' (v ++ ['.']) ['.'] (joinC '.' (x :: y :: S3)) =
            x ++ pyR '.' (v ++ ['.']) ['.'] ('.' :: joinC '.' (y :: S3)) := by
          rw [joinC_cons '.' x (y :: S3) (by simp)]
          exact pyR_append_left '.' (v ++ ['.']) ['.'] x _ hxdf
        by_cases hpre : (v ++ ['.']).isPrefixOf (joinC '.' (y :: S3)) = true
        · have hS3 : S3 ≠ [] := by
            intro h3
            subst h3
            exact prefix_sep_free '.' v y (hdf y (by simp)) hpre
          obtain ⟨z, S4, hS34⟩ : ∃ z S4, S3 = z :: S4 := by
            cases S3 with
            | nil => exact absurd rfl hS3
            | cons z S4 => exact ⟨z, S4, rfl⟩
          have hyv : v = y := by
            apply prefix_seg_eq '.' v y (joinC '.' (z :: S4)) hv (hdf y (by simp))
            rw [hS34, joinC_cons '.' y (z :: S4) (by simp)] at hpre
            exact hpre
          have hjy : joinC '.' (y :: S3) = (v ++ ['.']) ++ joinC '.' S3 := by
            rw [joinC_cons '.' y S3 hS3, hyv]
            simp
          have hmatch : pyR '.' (v ++ ['.']) ['.'] ('.' :: joinC '.' (y :: S3)) =
              '.' :: pyR '.' (v ++ ['.']) ['.'] (joinC '.' S3) := by
            rw [hjy]
            have hp2 : ('.' :: (v ++ ['.'])).isPrefixOf
                ('.' :: ((v ++ ['.']) ++ joinC '.' S3)) = true :=
              isPrefixOf_self_append ('.' :: (v ++ ['.'])) (joinC '.' S3)
            rw [pyR_cons_pos '.' (v ++ ['.']) ['.'] '.' _ hp2]
            have hdrop : ((v ++ ['.']) ++ joinC '.' S3).drop (v ++ ['.']).length =
                joinC '.' S3 := List.drop_left _ _
            rw [hdrop]
            rfl
          obtain ⟨S5, h5eq, h5ne, h5head, h5last, h5cnt, h5mem⟩ :=
            ih S3 (by simp at hlen; omega) hS3
              (fun z2 hz2 => hdf z2
                (List.mem_cons_of_mem x (List.mem_cons_of_mem y hz2)))
          refine ⟨x :: S5, ?_, by simp, rfl, ?_, ?_, ?_⟩
          · rw [hstep, hmatch, h5eq, joinC_cons '.' x S5 h5ne]
          · rw [getLast?_cons_ne x S5 h5ne, h5last, List.getLast?_cons_cons,
              getLast?_cons_ne y S3 hS3]
          · intro u hu
            have hyu : ¬ y = u := by
              rw [← hyv]
              exact fun he => hu he.symm
            simp [countL, h5cnt u hu, hyu]
          · intro z2 hz2
            rcases List.mem_cons.mp hz2 with h2 | h2
            · rw [h2]
              exact List.mem_cons_self x (y :: S3)
            · exact List.mem_cons_of_mem x
                (List.mem_cons_of_mem y (h5mem z2 h2))
        · have hpre2 : ('.' :: (v ++ ['.'])).isPrefixOf
              ('.' :: joinC '.' (y :: S3)) = false := by
            cases hb : (v ++ ['.']).isPrefixOf (joinC '.' (y :: S3)) with
            | true => exact absurd hb hpre
            | false => simp [List.isPrefixOf, hb]
          have hnom : pyR '.' (v ++ ['.']) ['.'] ('.' :: joinC '.' (y :: S3)) =
              '.' :: pyR '.' (v ++ ['.']) ['.'] (joinC '.' (y :: S3)) :=
            pyR_cons_neg '.' (v ++ ['.']) ['.'] '.' _ hpre2
          obtain ⟨S5, h5eq, h5ne, h5head, h5last, h5cnt, h5mem⟩ :=
            ih (y :: S3) (by simp at hlen ⊢; omega) (by simp)
              (fun z2 hz2 => hdf z2 (List.mem_cons_of_mem x hz2))
          refine ⟨x :: S5, ?_, by simp, rfl, ?_, ?_, ?_⟩
          · rw [hstep, hnom, h5eq, joinC_cons '.' x S5 h5ne]
          · rw [getLast?_cons_ne x S5 h5ne, h5last,
              getLast?_cons_ne x (y :: S3) (by simp)]
          · intro u hu
            simp [countL, h5cnt u hu]
          · intro z2 hz2
            rcases List.mem_cons.mp hz2 with h2 | h2
            · rw [h2]
              exact List.mem_cons_self x (y :: S3)
            · exact List.mem_cons_of_mem x (h5mem z2 h2)

/-- String-level effect of one `path.replace("." + u + ".", ".")` pass:
the split of the result keeps the first and last segment, keeps the
occurrence count of every value other than `u`, and introduces no segment
that was not already present. -/
theorem pyReplace_segments (p u : String) (hu : '.' ∉ u.data) :
    (splitCL '.' (pyReplace p ("." ++ u ++ ".") ".").data).head? =
      (splitCL '.' p.data).head? ∧
    (splitCL '.' (pyReplace p ("." ++ u ++ ".") ".").data).getLast? =
      (splitCL '.' p.data).getLast? ∧
    (∀ w2, w2 ≠ u.data →
      countL (splitCL '.' (pyReplace p ("." ++ u ++ ".") ".").data) w2 =
        countL (splitCL '.' p.data) w2) ∧
    (∀ x ∈ splitCL '.' (pyReplace p ("." ++ u ++ ".") ".").data,
      x ∈ splitCL '.' p.data) := by
  obtain ⟨S2, h2eq, h2ne, h2head, h2last, h2cnt, h2mem⟩ :=
    pyR_sublist u.data hu (splitCL '.' p.data).length (splitCL '.' p.data)
      (le_refl _) (splitCL_ne_nil '.' p.data) (sep_not_mem_splitCL '.' p.data)
  have hdata : (pyReplace p ("." ++ u ++ ".") ".").data = joinC '.' S2 := by
    rw [pyReplace_eq]
    show pyR '.' (u.data ++ ['.']) ['.'] p.data = joinC '.' S2
    rw [← joinC_splitCL '.' p.data]
    exact h2eq
  have hsplit2 : splitCL '.' (pyReplace p ("." ++ u ++ ".") ".").data = S2 := by
    rw [hdata]
    exact splitCL_joinC '.' S2 h2ne
      (fun x hx => sep_not_mem_splitCL '.' p.data x (h2mem x hx))
  rw [hsplit2]
  exact ⟨h2head, h2last, h2cnt, h2mem⟩

/-- haproxy, per-value: a backend value occurring exactly once as a
segment of the full path is gone after both replacement passes, whatever
the server value does. -/
theorem haproxy_backend_safe (d : RawMetric) (b s : String) (l2 : List Char)
    (hM : splitCL '.' d.metricPath.data = [b.data, s.data, l2])
    (hcb : countL (splitC '.' d.path) b = 1) :
    b ∉ splitC '.'
      (pyReplace (pyReplace d.path ("." ++ s ++ ".") ".") ("." ++ b ++ ".") ".") := by
  set PC := splitCL '.' d.pathPrefix.data ++ splitCL '.' d.collectorPath.data with hPC
  have hPCne : PC ≠ [] := fun h =>
    splitCL_ne_nil '.' d.pathPrefix.data (List.append_eq_nil.mp h).1
  have hsplit0 : splitCL '.' d.path.data = PC ++ b.data :: (s.data :: [l2]) := by
    rw [path_splitCL, hM]
  have hcb' : countL (splitCL '.' d.path.data) b.data = 1 := by
    rw [← splitC_count]
    exact hcb
  have hcb0 : countL (PC ++ b.data :: (s.data :: [l2])) b.data = 1 := by
    rw [← hsplit0]
    exact hcb'
  obtain ⟨hbPC, hbrest⟩ := count_one_decomp PC (s.data :: [l2]) b.data hcb0
  have hbs : b.data ≠ s.data := fun he =>
    hbrest (by rw [he]; exact List.mem_cons_self _ _)
  have hbl2 : b.data ≠ l2 := fun he =>
    hbrest (by rw [he]; exact List.mem_cons_of_mem _ (List.mem_cons_self _ _))
  have hsdf : '.' ∉ s.data :=
    sep_not_mem_splitCL '.' d.metricPath.data s.data (by rw [hM]; simp)
  obtain ⟨hhead1, hlast1, hcnt1, hmem1⟩ := pyReplace_segments d.path s hsdf
  have hc1 : countL (splitCL '.' (pyReplace d.path ("." ++ s ++ ".") ".").data)
      b.data = 1 := by
    rw [hcnt1 b.data hbs]
    exact hcb'
  have hhead0 : (splitCL '.' d.path.data).head? ≠ some b.data := by
    rw [hsplit0]
    exact head_ne_of_not_mem PC _ b.data hPCne hbPC
  have hlast0 : (splitCL '.' d.path.data).getLast? ≠ some b.data := by
    rw [hsplit0, show PC ++ b.data :: (s.data :: [l2]) =
      (PC ++ [b.data, s.data]) ++ [l2] by simp]
    exact last_ne_of_decomp _ [l2] b.data (by simp) (by simp [hbl2])
  obtain ⟨xs, ys, hS1, hxs, hys, hbxs, hbys⟩ := decomp_from_count _ b.data hc1
    (by rw [hhead1]; exact hhead0) (by rw [hlast1]; exact hlast0)
  obtain ⟨hres2, hmem2⟩ := removal_master (pyReplace d.path ("." ++ s ++ ".") ".") b
    xs ys hS1 hxs hys hc1
  rw [splitC_mem, hres2]
  exact hmem2

/-- haproxy, per-value: a server value occurring exactly once as a
segment of the full path is gone after both replacement passes, whatever
the backend value does. -/
theorem haproxy_server_safe (d : RawMetric) (b s : String) (l2 : List Char)
    (hM : splitCL '.' d.metricPath.data = [b.data, s.data, l2])
    (hcs : countL (splitC '.' d.path) s = 1) :
    s ∉ splitC '.'
      (pyReplace (pyReplace d.path ("." ++ s ++ ".") ".") ("." ++ b ++ ".") ".") := by
  have hM1 : splitCL '.' d.metricPath.data = [b.data] ++ s.data :: [l2] := by
    rw [hM]
    rfl
  obtain ⟨hres1, hmem1⟩ := seg_removal_safe d s [b.data] [l2] hM1 (by simp) hcs
  have hbdf : '.' ∉ b.data :=
    sep_not_mem_splitCL '.' d.metricPath.data b.data (by rw [hM]; simp)
  obtain ⟨hhead2, hlast2, hcnt2, hmem2⟩ :=
    pyReplace_segments (pyReplace d.path ("." ++ s ++ ".") ".") b hbdf
  rw [splitC_mem]
  intro hmem
  apply hmem1
  rw [splitC_mem]
  exact hmem2 s.data hmem

/-- mattermost channeldetails, per-value: a team value occurring exactly
once as a segment of the full path is gone after both passes, whatever the
channel value does. -/
theorem mm_channel_team_safe (d : RawMetric) (team channel : String)
    (m0 : List Char) (L3 : List (List Char))
    (hM : splitCL '.' d.metricPath.data = m0 :: team.data :: channel.data :: L3)
    (hct : countL (splitC '.' d.path) team = 1) :
    team ∉ splitC '.'
      (pyReplace (pyReplace d.path ("." ++ team ++ ".") ".")
        ("." ++ channel ++ ".") ".") := by
  have hM1 : splitCL '.' d.metricPath.data =
      [m0] ++ team.data :: (channel.data :: L3) := by
    rw [hM]
    rfl
  obtain ⟨hres1, hmem1⟩ := seg_removal_safe d team [m0] (channel.data :: L3) hM1
    (by simp) hct
  have hcdf : '.' ∉ channel.data :=
    sep_not_mem_splitCL '.' d.metricPath.data channel.data (by rw [hM]; simp)
  obtain ⟨hhead2, hlast2, hcnt2, hmem2⟩ :=
    pyReplace_segments (pyReplace d.path ("." ++ team ++ ".") ".") channel hcdf
  rw [splitC_mem]
  intro hmem
  apply hmem1
  rw [splitC_mem]
  exact hmem2 team.data hmem

/-- mattermost channeldetails, per-value: a channel value occurring
exactly once as a segment of the full path and not as its final segment is
gone after both passes, whatever the team value does. -/
theorem mm_channel_chan_safe (d : RawMetric) (team channel : String)
    (m0 : List Char) (L3 : List (List Char))
    (hM : splitCL '.' d.metricPath.data = m0 :: team.data :: channel.data :: L3)
    (hcc : countL (splitC '.' d.path) channel = 1)
    (hlastc : (splitC '.' d.path).getLast? ≠ some channel) :
    channel ∉ splitC '.'
      (pyReplace (pyReplace d.path ("." ++ team ++ ".") ".")
        ("." ++ channel ++ ".") ".") := by
  set PC := splitCL '.' d.pathPrefix.data ++ splitCL '.' d.collectorPath.data with hPC
  have hPCne : PC ≠ [] := fun h =>
    splitCL_ne_nil '.' d.pathPrefix.data (List.append_eq_nil.mp h).1
  have hsplit0 : splitCL '.' d.path.data =
      ((PC ++ [m0]) ++ [team.data]) ++ channel.data :: L3 := by
    rw [path_splitCL, hM, ← hPC]
    simp
  have hcc' : countL (splitCL '.' d.path.data) channel.data = 1 := by
    rw [← splitC_count]
    exact hcc
  have hcc0 : countL (((PC ++ [m0]) ++ [team.data]) ++ channel.data :: L3)
      channel.data = 1 := by
    rw [← hsplit0]
    exact hcc'
  obtain ⟨hcxs, hcys⟩ := count_one_decomp ((PC ++ [m0]) ++ [team.data]) L3
    channel.data hcc0
  have hcteam : channel.data ≠ team.data := fun he =>
    hcxs (by rw [he]; exact List.mem_append_right _ (List.mem_cons_self _ _))
  have htdf : '.' ∉ team.data :=
    sep_not_mem_splitCL '.' d.metricPath.data team.data (by rw [hM]; simp)
  obtain ⟨hhead1, hlast1, hcnt1, hmem1⟩ := pyReplace_segments d.path team htdf
  have hc1 : countL (splitCL '.' (pyReplace d.path ("." ++ team ++ ".") ".").data)
      channel.data = 1 := by
    rw [hcnt1 channel.data hcteam]
    exact hcc'
  have hhead0 : (splitCL '.' d.path.data).head? ≠ some channel.data := by
    rw [hsplit0]
    exact head_ne_of_not_mem _ _ channel.data
      (fun h => hPCne (List.append_eq_nil.mp (List.append_eq_nil.mp h).1).1) hcxs
  have hlast0 : (splitCL '.' d.path.data).getLast? ≠ some channel.data :=
    splitC_getLast?_ne d.path channel hlastc
  obtain ⟨xs, ys, hS1, hxs, hys, hbxs, hbys⟩ := decomp_from_count _ channel.data hc1
    (by rw [hhead1]; exact hhead0) (by rw [hlast1]; exact hlast0)
  obtain ⟨hres2, hmem2⟩ := removal_master (pyReplace d.path ("." ++ team ++ ".") ".")
    channel xs ys hS1 hxs hys hc1
  rw [splitC_mem, hres2]
  exact hmem2

/-- mattermost userdetails, per-value: a user value occurring exactly once
as a segment of the full path is gone after all three passes, whatever the
team and channel values do. -/
theorem mm_user_user_safe (d : RawMetric) (u t c : String) (m0 : List Char)
    (M5 : List (List Char))
    (hM : splitCL '.' d.metricPath.data = m0 :: u.data :: t.data :: c.data :: M5)
    (hcu : countL (splitC '.' d.path) u = 1) :
    u ∉ splitC '.' (pyReplace (pyReplace (pyReplace d.path ("." ++ u ++ ".") ".")
      ("." ++ t ++ ".") ".") ("." ++ c ++ ".") ".") := by
  have hM1 : splitCL '.' d.metricPath.data =
      [m0] ++ u.data :: (t.data :: c.data :: M5) := by
    rw [hM]
    rfl
  obtain ⟨hres1, hmem1⟩ := seg_removal_safe d u [m0] (t.data :: c.data :: M5) hM1
    (by simp) hcu
  have htdf : '.' ∉ t.data :=
    sep_not_mem_splitCL '.' d.metricPath.data t.data (by rw [hM]; simp)
  have hcdf : '.' ∉ c.data :=
    sep_not_mem_splitCL '.' d.metricPath.data c.data (by rw [hM]; simp)
  obtain ⟨hhead2, hlast2, hcnt2, hmem2⟩ :=
    pyReplace_segments (pyReplace d.path ("." ++ u ++ ".") ".") t htdf
  obtain ⟨hhead3, hlast3, hcnt3, hmem3⟩ :=
    pyReplace_segments (pyReplace (pyReplace d.path ("." ++ u ++ ".") ".")
      ("." ++ t ++ ".") ".") c hcdf
  rw [splitC_mem]
  intro hmem
  apply hmem1
  rw [splitC_mem]
  exact hmem2 u.data (hmem3 u.data hmem)

/-- mattermost userdetails, per-value: a team value occurring exactly once
as a segment of the full path is gone after all three passes, whatever the
user and channel values do. -/
theorem mm_user_team_safe (d : RawMetric) (u t c : String) (m0 : List Char)
    (M5 : List (List Char))
    (hM : splitCL '.' d.metricPath.data = m0 :: u.data :: t.data :: c.data :: M5)
    (hct : countL (splitC '.' d.path) t = 1) :
    t ∉ splitC '.' (pyReplace (pyReplace (pyReplace d.path ("." ++ u ++ ".") ".")
      ("." ++ t ++ ".") ".") ("." ++ c ++ ".") ".") := by
  set PC := splitCL '.' d.pathPrefix.data ++ splitCL '.' d.collectorPath.data with hPC
  have hPCne : PC ≠ [] := fun h =>
    splitCL_ne_nil '.' d.pathPrefix.data (List.append_eq_nil.mp h).1
  have hsplit0 : splitCL '.' d.path.data =
      ((PC ++ [m0]) ++ [u.data]) ++ t.data :: (c.data :: M5) := by
    rw [path_splitCL, hM, ← hPC]
    simp
  have hct' : countL (splitCL '.' d.path.data) t.data = 1 := by
    rw [← splitC_count]
    exact hct
  have hct0 : countL (((PC ++ [m0]) ++ [u.data]) ++ t.data :: (c.data :: M5))
      t.data = 1 := by
    rw [← hsplit0]
    exact hct'
  obtain ⟨htxs, htys⟩ := count_one_decomp ((PC ++ [m0]) ++ [u.data]) (c.data :: M5)
    t.data hct0
  have htu : t.data ≠ u.data := fun he =>
    htxs (by rw [he]; exact List.mem_append_right _ (List.mem_cons_self _ _))
  have hudf : '.' ∉ u.data :=
    sep_not_mem_splitCL '.' d.metricPath.data u.data (by rw [hM]; simp)
  have hcdf : '.' ∉ c.data :=
    sep_not_mem_splitCL '.' d.metricPath.data c.data (by rw [hM]; simp)
  obtain ⟨hhead1, hlast1, hcnt1, hmem1⟩ := pyReplace_segments d.path u hudf
  have hc1 : countL (splitCL '.' (pyReplace d.path ("." ++ u ++ ".") ".").data)
      t.data = 1 := by
    rw [hcnt1 t.data htu]
    exact hct'
  have hhead0 : (splitCL '.' d.path.data).head? ≠ some t.data := by
    rw [hsplit0]
    exact head_ne_of_not_mem _ _ t.data
      (fun h => hPCne (List.append_eq_nil.mp (List.append_eq_nil.mp h).1).1) htxs
  have hlast0 : (splitCL '.' d.path.data).getLast? ≠ some t.data := by
    rw [hsplit0, show ((PC ++ [m0]) ++ [u.data]) ++ t.data :: (c.data :: M5) =
      (((PC ++ [m0]) ++ [u.data]) ++ [t.data]) ++ (c.data :: M5) by simp]
    exact last_ne_of_decomp _ (c.data :: M5) t.data (by simp) htys
  obtain ⟨xs, ys, hS1, hxs, hys, hbxs, hbys⟩ := decomp_from_count _ t.data hc1
    (by rw [hhead1]; exact hhead0) (by rw [hlast1]; exact hlast0)
  obtain ⟨hres2, hmem2⟩ := removal_master (pyReplace d.path ("." ++ u ++ ".") ".") t
    xs ys hS1 hxs hys hc1
  obtain ⟨hhead3, hlast3, hcnt3, hmem3⟩ :=
    pyReplace_segments (pyReplace (pyReplace d.path ("." ++ u ++ ".") ".")
      ("." ++ t ++ ".") ".") c hcdf
  rw [splitC_mem]
  intro hmem
  have h3 := hmem3 t.data hmem
  rw [hres2] at h3
  exact hmem2 h3

/-- mattermost userdetails, per-value: a channel value occurring exactly
once as a segment of the full path and not as its final segment is gone
after all three passes, whatever the user and team values do. -/
theorem mm_user_chan_safe (d : RawMetric) (u t c : String) (m0 : List Char)
    (M5 : List (List Char))
    (hM : splitCL '.' d.metricPath.data = m0 :: u.data :: t.data :: c.data :: M5)
    (hcc : countL (splitC '.' d.path) c = 1)
    (hlastc : (splitC '.' d.path).getLast? ≠ some c) :
    c ∉ splitC '.' (pyReplace (pyReplace (pyReplace d.path ("." ++ u ++ ".") ".")
      ("." ++ t ++ ".") ".") ("." ++ c ++ ".") ".") := by
  set PC := splitCL '.' d.pathPrefix.data ++ splitCL '.' d.collectorPath.data with hPC
  have hPCne : PC ≠ [] := fun h =>
    splitCL_ne_nil '.' d.pathPrefix.data (List.append_eq_nil.mp h).1
  have hsplit0 : splitCL '.' d.path.data =
      (((PC ++ [m0]) ++ [u.data]) ++ [t.data]) ++ c.data :: M5 := by
    rw [path_splitCL, hM, ← hPC]
    simp
  have hcc' : countL (splitCL '.' d.path.data) c.data = 1 := by
    rw [← splitC_count]
    exact hcc
  have hcc0 : countL ((((PC ++ [m0]) ++ [u.data]) ++ [t.data]) ++ c.data :: M5)
      c.data = 1 := by
    rw [← hsplit0]
    exact hcc'
  obtain ⟨hcxs, hcys⟩ := count_one_decomp (((PC ++ [m0]) ++ [u.data]) ++ [t.data]) M5
    c.data hcc0
  have hcu : c.data ≠ u.data := by
    intro he
    apply hcxs
    rw [he]
    exact List.mem_append_left _ (List.mem_append_right _ (List.mem_cons_self _ _))
  have hcte : c.data ≠ t.data := fun he =>
    hcxs (by rw [he]; exact List.mem_append_right _ (List.mem_cons_self _ _))
  have hudf : '.' ∉ u.data :=
    sep_not_mem_splitCL '.' d.metricPath.data u.data (by rw [hM]; simp)
  have htdf : '.' ∉ t.data :=
    sep_not_mem_splitCL '.' d.metricPath.data t.data (by rw [hM]; simp)
  obtain ⟨hhead1, hlast1, hcnt1, hmem1⟩ := pyReplace_segments d.path u hudf
  obtain ⟨hhead2, hlast2, hcnt2, hmem2⟩ :=
    pyReplace_segments (pyReplace d.path ("." ++ u ++ ".") ".") t htdf
  have hc2 : countL (splitCL '.' (pyReplace (pyReplace d.path ("." ++ u ++ ".") ".")
      ("." ++ t ++ ".") ".").data) c.data = 1 := by
    rw [hcnt2 c.data hcte, hcnt1 c.data hcu]
    exact hcc'
  have hhead0 : (splitCL '.' d.path.data).head? ≠ some c.data := by
    rw [hsplit0]
    exact head_ne_of_not_mem _ _ c.data
      (fun h => hPCne (List.append_eq_nil.mp
        (List.append_eq_nil.mp (List.append_eq_nil.mp h).1).1).1) hcxs
  have hlast0 : (splitCL '.' d.path.data).getLast? ≠ some c.data :=
    splitC_getLast?_ne d.path c hlastc
  obtain ⟨xs, ys, hS2, hxs, hys, hbxs, hbys⟩ := decomp_from_count _ c.data hc2
    (by rw [hhead2, hhead1]; exact hhead0) (by rw [hlast2, hlast1]; exact hlast0)
  obtain ⟨hres3, hmem3⟩ := removal_master (pyReplace (pyReplace d.path
    ("." ++ u ++ ".") ".") ("." ++ t ++ ".") ".") c xs ys hS2 hxs hys hc2
  rw [splitC_mem, hres3]
  exact hmem3

/-- C1 (amended): for every (collector, path) pair, when extraction
succeeds, every value placed into the tag set that occurs exactly once as a
`.`-delimited segment of the full original path and is not the path's final
segment does not occur as a standalone segment of the rewritten path.  The
two conditions are per value: each tag value satisfying them is absent from
the rewritten path regardless of how the other tag values of the same
metric behave.  (The substring-based removal cannot delete a final segment
— it has no trailing delimiter — and deletes duplicate occurrences
unpredictably, which is what the two conditions rule out; the
counterexample shows the unamended claim fails on duplicates.) -/
theorem tag_values_not_in_rewritten_path (d : RawMetric) (w : MetricWrapper)
    (hw : processMetric d = some w) :
    ∀ v ∈ w.tags.map Prod.snd,
      countL (splitC '.' d.path) v = 1 →
      (splitC '.' d.path).getLast? ≠ some v →
      v ∉ splitC '.' w.path := by
  unfold processMetric dispatchHandler at hw
  by_cases h1 : d.collectorPath = "cpu"
  · rw [if_pos h1] at hw
    unfold processCpuMetric at hw
    rw [getMetricPath_mkWrapper] at hw
    simp only [mkWrapper] at hw
    by_cases h2 : 1 < (splitC '.' d.metricPath).length
    · rw [if_pos h2] at hw
      split at hw
      · rename_i s0 cpuId heq1 heq2
        injection hw with hw
        subst hw
        intro v hv hc hlast2
        simp [dictSet] at hv
        subst hv
        have hg := splitC_get?_data d.metricPath v 0 heq2
        have hlen : 1 < (splitCL '.' d.metricPath.data).length := by
          rw [← splitC_length]
          exact h2
        cases hms : splitCL '.' d.metricPath.data with
        | nil => rw [hms] at hlen; simp at hlen
        | cons m0 M1 =>
          cases M1 with
          | nil => rw [hms] at hlen; simp at hlen
          | cons m1 M2 =>
            rw [hms] at hg
            simp at hg
            have hM : splitCL '.' d.metricPath.data = [] ++ v.data :: (m1 :: M2) := by
              rw [List.nil_append, hms, hg]
            exact (seg_removal_safe d v [] (m1 :: M2) hM (by simp) hc).2
      · exact absurd hw (by simp)
    · rw [if_neg h2] at hw
      injection hw with hw
      subst hw
      intro v hv
      simp [mkWrapper] at hv
  · rw [if_neg h1] at hw
    by_cases h3 : d.collectorPath = "haproxy"
    · rw [if_pos h3] at hw
      unfold processHaProxyMetric at hw
      rw [getMetricPath_mkWrapper] at hw
      simp only [mkWrapper] at hw
      by_cases h4 : (splitC '.' d.metricPath).length = 3
      · rw [if_pos (by simp [h4] : ((splitC '.' d.metricPath).length == 3) = true)] at hw
        split at hw
        · rename_i s1 backend server heq1 heq2 heq3
          injection hw with hw
          subst hw
          intro v hv hc hlast2
          simp [dictSet] at hv
          have hgb := splitC_get?_data d.metricPath backend 0 heq2
          have hgs := splitC_get?_data d.metricPath server 1 heq3
          have hlen : (splitCL '.' d.metricPath.data).length = 3 := by
            rw [← splitC_length]
            exact h4
          cases hms : splitCL '.' d.metricPath.data with
          | nil => rw [hms] at hlen; simp at hlen
          | cons l0 M1 =>
            cases M1 with
            | nil => rw [hms] at hlen; simp at hlen
            | cons l1 M2 =>
              cases M2 with
              | nil => rw [hms] at hlen; simp at hlen
              | cons l2 M3 =>
                cases M3 with
                | cons x M4 => rw [hms] at hlen; simp at hlen
                | nil =>
                  rw [hms] at hgb hgs
                  simp at hgb hgs
                  have hM : splitCL '.' d.metricPath.data =
                      [backend.data, server.data, l2] := by
                    rw [hms, hgb, hgs]
                  rcases hv with hv | hv
                  · rw [← hv] at hM ⊢
                    exact haproxy_backend_safe d v server l2 hM hc
                  · rw [← hv] at hM ⊢
                    exact haproxy_server_safe d backend v l2 hM hc
        · exact absurd hw (by simp)
      · rw [if_neg (by simp [h4] : ¬ ((splitC '.' d.metricPath).length == 3) = true)] at hw
        injection hw with hw
        subst hw
        intro v hv
        simp [mkWrapper] at hv
    · rw [if_neg h3] at hw
      by_cases h5 : d.collectorPath = "mattermost"
      · rw [if_pos h5] at hw
        simp only [processMattermostMetric] at hw
        rw [getMetricPath_mkWrapper] at hw
        by_cases hlen : (splitC '.' d.metricPath).length > 2
        · rw [if_pos hlen] at hw
          split at hw
          · exact absurd hw (by simp)
          · rename_i s0 heqs0
            split at hw
            · exact absurd hw (by simp)
            · rename_i w1 heqT
              split at hw
              · exact absurd hw (by simp)
              · rename_i w2 heqC
                have hlenc : 2 < (splitCL '.' d.metricPath.data).length := by
                  rw [← splitC_length]
                  exact hlen
                obtain ⟨l0, l1, l2, L3, hms⟩ :
                    ∃ l0 l1 l2 L3, splitCL '.' d.metricPath.data =
                      l0 :: l1 :: l2 :: L3 := by
                  cases hx : splitCL '.' d.metricPath.data with
                  | nil => rw [hx] at hlenc; simp at hlenc
                  | cons a R1 =>
                    cases R1 with
                    | nil => rw [hx] at hlenc; simp at hlenc
                    | cons b R2 =>
                      cases R2 with
                      | nil => rw [hx] at hlenc; simp at hlenc
                      | cons e R3 => exact ⟨a, b, e, R3, rfl⟩
                by_cases hA : s0 = "teamdetails"
                · unfold mattermostTeamBranch at heqT
                  rw [if_pos (by simp [hA] :
                    (s0 == "teamdetails" || s0 == "channeldetails") = true)] at heqT
                  split at heqT
                  · rename_i team heqt1
                    injection heqT with heqT
                    unfold mattermostChannelBranch at heqC
                    rw [if_neg (by simp [hA] :
                      ¬ (s0 == "channeldetails") = true)] at heqC
                    injection heqC with heqC
                    unfold mattermostUserBranch at hw
                    rw [if_neg (by simp [hA] :
                      ¬ (s0 == "userdetails") = true)] at hw
                    injection hw with hw
                    subst hw
                    subst heqC
                    subst heqT
                    simp only [mkWrapper]
                    intro v hv hc hlast2
                    simp [dictSet] at hv
                    subst hv
                    have hgt := splitC_get?_data d.metricPath v 1 heqt1
                    rw [hms] at hgt
                    simp at hgt
                    have hM : splitCL '.' d.metricPath.data =
                        [l0] ++ v.data :: (l2 :: L3) := by
                      rw [hms, hgt]
                      rfl
                    exact (seg_removal_safe d v [l0] (l2 :: L3) hM (by simp) hc).2
                  · exact absurd heqT (by simp)
                · by_cases hB : s0 = "channeldetails"
                  · unfold mattermostTeamBranch at heqT
                    rw [if_pos (by simp [hB] :
                      (s0 == "teamdetails" || s0 == "channeldetails") = true)] at heqT
                    split at heqT
                    · rename_i team heqt1
                      injection heqT with heqT
                      unfold mattermostChannelBranch at heqC
                      rw [if_pos (by simp [hB] :
                        (s0 == "channeldetails") = true)] at heqC
                      split at heqC
                      · rename_i channel heqc2
                        injection heqC with heqC
                        unfold mattermostUserBranch at hw
                        rw [if_neg (by simp [hB] :
                          ¬ (s0 == "userdetails") = true)] at hw
                        injection hw with hw
                        subst hw
                        subst heqC
                        subst heqT
                        simp only [mkWrapper]
                        intro v hv hc hlast2
                        simp [dictSet] at hv
                        have hgt := splitC_get?_data d.metricPath team 1 heqt1
                        have hgc := splitC_get?_data d.metricPath channel 2 heqc2
                        rw [hms] at hgt hgc
                        simp at hgt hgc
                        have hM : splitCL '.' d.metricPath.data =
                            l0 :: team.data :: channel.data :: L3 := by
                          rw [hms, hgt, hgc]
                        rcases hv with hv | hv
                        · rw [← hv] at hM ⊢
                          exact mm_channel_team_safe d v channel l0 L3 hM hc
                        · rw [← hv] at hM ⊢
                          exact mm_channel_chan_safe d team v l0 L3 hM hc hlast2
                      · exact absurd heqC (by simp)
                    · exact absurd heqT (by simp)
                  · by_cases hC : s0 = "userdetails"
                    · unfold mattermostTeamBranch at heqT
                      rw [if_neg (by simp [hA, hB] :
                        ¬ (s0 == "teamdetails" || s0 == "channeldetails") = true)] at heqT
                      injection heqT with heqT
                      unfold mattermostChannelBranch at heqC
                      rw [if_neg (by simp [hB] :
                        ¬ (s0 == "channeldetails") = true)] at heqC
                      injection heqC with heqC
                      unfold mattermostUserBranch at hw
                      rw [if_pos (by simp [hC] : (s0 == "userdetails") = true)] at hw
                      split at hw
                      · rename_i user team channel hequ heqt heqc
                        injection hw with hw
                        subst hw
                        subst heqC
                        subst heqT
                        simp only [mkWrapper]
                        intro v hv hc hlast2
                        simp [dictSet] at hv
                        have hgu := splitC_get?_data d.metricPath user 1 hequ
                        have hgt := splitC_get?_data d.metricPath team 2 heqt
                        have hgc := splitC_get?_data d.metricPath channel 3 heqc
                        rw [hms] at hgu hgt hgc
                        simp at hgu hgt hgc
                        obtain ⟨c3, M5, hL3⟩ : ∃ c3 M5, L3 = c3 :: M5 := by
                          cases hx : L3 with
                          | nil =>
                            rw [hx] at hgc
                            simp at hgc
                          | cons c3 M5 => exact ⟨c3, M5, rfl⟩
                        rw [hL3] at hgc
                        simp at hgc
                        have hM : splitCL '.' d.metricPath.data =
                            l0 :: user.data :: team.data :: channel.data :: M5 := by
                          rw [hms, hgu, hgt, hL3, hgc]
                        rcases hv with hv | hv | hv
                        · rw [← hv] at hM ⊢
                          exact mm_user_user_safe d v team channel l0 M5 hM hc
                        · rw [← hv] at hM ⊢
                          exact mm_user_team_safe d user v channel l0 M5 hM hc
                        · rw [← hv] at hM ⊢
                          exact mm_user_chan_safe d user team v l0 M5 hM hc hlast2
                      · exact absurd hw (by simp)
                    · unfold mattermostTeamBranch at heqT
                      rw [if_neg (by simp [hA, hB] :
                        ¬ (s0 == "teamdetails" || s0 == "channeldetails") = true)] at heqT
                      injection heqT with heqT
                      unfold mattermostChannelBranch at heqC
                      rw [if_neg (by simp [hB] :
                        ¬ (s0 == "channeldetails") = true)] at heqC
                      injection heqC with heqC
                      unfold mattermostUserBranch at hw
                      rw [if_neg (by simp [hC] : ¬ (s0 == "userdetails") = true)] at hw
                      injection hw with hw
                      subst hw
                      subst heqC
                      subst heqT
                      intro v hv
                      simp [mkWrapper] at hv
        · rw [if_neg hlen] at hw
          injection hw with hw
          subst hw
          intro v hv
          simp [mkWrapper] at hv
      · rw [if_neg h5] at hw
        by_cases h6 : d.collectorPath = "diskspace"
        · rw [if_pos h6] at hw
          unfold processDiskspaceMetric at hw
          rw [getMetricPath_mkWrapper] at hw
          simp only [mkWrapper] at hw
          by_cases hl : (splitC '.' d.metricPath).length = 2
          · rw [if_pos (by simp [hl])] at hw
            split at hw
            · rename_i mnt heqm
              injection hw with hw
              subst hw
              intro v hv hc hlast2
              simp [dictSet] at hv
              subst hv
              have hg := splitC_get?_data d.metricPath v 0 heqm
              have hlenc : (splitCL '.' d.metricPath.data).length = 2 := by
                rw [← splitC_length]
                exact hl
              cases hms : splitCL '.' d.metricPath.data with
              | nil => rw [hms] at hlenc; simp at hlenc
              | cons l0 M1 =>
                cases M1 with
                | nil => rw [hms] at hlenc; simp at hlenc
                | cons l1 M2 =>
                  cases M2 with
                  | cons x M3 => rw [hms] at hlenc; simp at hlenc
                  | nil =>
                    rw [hms] at hg
                    simp at hg
                    have hM : splitCL '.' d.metricPath.data =
                        [] ++ v.data :: [l1] := by
                      rw [List.nil_append, hms, hg]
                    exact (seg_removal_safe d v [] [l1] hM (by simp) hc).2
            · exact absurd hw (by simp)
          · rw [if_neg (by simp [hl])] at hw
            injection hw with hw
            subst hw
            intro v hv
            simp [mkWrapper] at hv
        · rw [if_neg h6] at hw
          by_cases h7 : d.collectorPath = "iostat"
          · rw [if_pos h7] at hw
            unfold processDiskusageMetric at hw
            rw [getMetricPath_mkWrapper] at hw
            simp only [mkWrapper] at hw
            by_cases hl : (splitC '.' d.metricPath).length = 2
            · rw [if_pos (by simp [hl])] at hw
              split at hw
              · rename_i dev heqm
                injection hw with hw
                subst hw
                intro v hv hc hlast2
                simp [dictSet] at hv
                subst hv
                have hg := splitC_get?_data d.metricPath v 0 heqm
                have hlenc : (splitCL '.' d.metricPath.data).length = 2 := by
                  rw [← splitC_length]
                  exact hl
                cases hms : splitCL '.' d.metricPath.data with
                | nil => rw [hms] at hlenc; simp at hlenc
                | cons l0 M1 =>
                  cases M1 with
                  | nil => rw [hms] at hlenc; simp at hlenc
                  | cons l1 M2 =>
                    cases M2 with
                    | cons x M3 => rw [hms] at hlenc; simp at hlenc
                    | nil =>
                      rw [hms] at hg
                      simp at hg
                      have hM : splitCL '.' d.metricPath.data =
                          [] ++ v.data :: [l1] := by
                        rw [List.nil_append, hms, hg]
                      exact (seg_removal_safe d v [] [l1] hM (by simp) hc).2
              · exact absurd hw (by simp)
            · rw [if_neg (by simp [hl])] at hw
              injection hw with hw
              subst hw
              intro v hv
              simp [mkWrapper] at hv
          · rw [if_neg h7] at hw
            by_cases h8 : d.collectorPath = "network"
            · rw [if_pos h8] at hw
              unfold processNetworkMetric at hw
              rw [getMetricPath_mkWrapper] at hw
              simp only [mkWrapper] at hw
              by_cases hl : (splitC '.' d.metricPath).length = 2
              · rw [if_pos (by simp [hl])] at hw
                split at hw
                · rename_i ifc heqm
                  injection hw with hw
                  subst hw
                  intro v hv hc hlast2
                  simp [dictSet] at hv
                  subst hv
                  have hg := splitC_get?_data d.metricPath v 0 heqm
                  have hlenc : (splitCL '.' d.metricPath.data).length = 2 := by
                    rw [← splitC_length]
                    exact hl
                  cases hms : splitCL '.' d.metricPath.data with
                  | nil => rw [hms] at hlenc; simp at hlenc
                  | cons l0 M1 =>
                    cases M1 with
                    | nil => rw [hms] at hlenc; simp at hlenc
                    | cons l1 M2 =>
                      cases M2 with
                      | cons x M3 => rw [hms] at hlenc; simp at hlenc
                      | nil =>
                        rw [hms] at hg
                        simp at hg
                        have hM : splitCL '.' d.metricPath.data =
                            [] ++ v.data :: [l1] := by
                          rw [List.nil_append, hms, hg]
                        exact (seg_removal_safe d v [] [l1] hM (by simp) hc).2
                · exact absurd hw (by simp)
              · rw [if_neg (by simp [hl])] at hw
                injection hw with hw
                subst hw
                intro v hv
                simp [mkWrapper] at hv
            · rw [if_neg h8] at hw
              unfold processDefaultMetric at hw
              injection hw with hw
              subst hw
              intro v hv
              simp [mkWrapper] at hv

def cpuTotalTotal : RawMetric :=
  { pathPrefix := "servers.h", collectorPath := "cpu", metricPath := "total.total",
    host := "h", timestamp := "123", value := "1", raw_value := "1",
    precision := 0, ttl := 0, metric_type := "GAUGE" }

/-- C1 counterexample: the claim's own example.  For collector `cpu` with
metric path `total.total` the cpu-rule precondition holds, the extraction
places `total` into the tag set, and the rewritten path
`servers.h.cpu.total` still contains `total` as a standalone segment (the
replace of `.total.` cannot touch the final segment). -/
theorem tag_segment_counterexample :
    1 < (splitC '.' cpuTotalTotal.metricPath).length ∧
    processMetric cpuTotalTotal = some
      { delegate := cpuTotalTotal, path := "servers.h.cpu.total",
        tags := [("cpuId", "total")], aggregate := true } ∧
    "total" ∈ ([("cpuId", "total")] : List (String × String)).map Prod.snd ∧
    "total" ∈ splitC '.' "servers.h.cpu.total" := by
  decide

def cpuZeroIdle : RawMetric :=
  { pathPrefix := "servers.h", collectorPath := "cpu", metricPath := "0.idle",
    host := "h", timestamp := "123", value := "1", raw_value := "1",
    precision := 0, ttl := 0, metric_type := "GAUGE" }

def cpuZeroIdleWrapper : MetricWrapper :=
  { delegate := cpuZeroIdle, path := "servers.h.cpu.idle",
    tags := [("cpuId", "0")], aggregate := false }

/-- Witness for `tag_values_not_in_rewritten_path` at a concrete cpu
metric whose tag value `0` occurs exactly once and not as final segment. -/
theorem tag_values_witness :
    processMetric cpuZeroIdle = some cpuZeroIdleWrapper ∧
    "0" ∉ splitC '.' cpuZeroIdleWrapper.path :=
  ⟨by decide,
    tag_values_not_in_rewritten_path cpuZeroIdle cpuZeroIdleWrapper (by decide)
      "0" (by decide) (by decide) (by decide)⟩
